import Mathlib

/-!
Shallow embedding of `src/shared/message_queue.rs` from the cobalt-rs
repository: a message queue multiplexing messages of three reliability
kinds onto packets, with a compact 3-byte-header wire format, quota-based
packing, out-of-order reassembly of `Ordered` messages, and loss-driven
retransmission bookkeeping.

Modelling conventions:
* `u8`/`u16`/`usize` values are `Nat`s; casts are explicit `% 2^w` at the
  places the Rust source casts.  `usize` subtraction (which wraps in a
  release build) is `usizeSub` below.
* `Vec<u8>` buffers are `List Nat` (each element a byte value).
* `VecDeque<Message>` is `List Message` (front of the deque = head).
* The `BinaryHeap<Message>` (a min-heap on `order` via the reversed `Ord`
  instance in the source) is modelled as a list kept sorted by `order`
  ascending: `push` is ordered insertion, `peek` is the head, `pop`
  removes the head.
-/

namespace MQ

/-- `MAX_ORDER_ID`: maximum message ordering id before wrap around. -/
def MAX_ORDER_ID : Nat := 4096

/-- `MESSAGE_HEADER_BYTES`: number of bytes in a single message header. -/
def MESSAGE_HEADER_BYTES : Nat := 3

/-- The four message kinds of the source `MessageKind` enum. -/
inductive MessageKind where
  | Instant
  | Reliable
  | Ordered
  | Invalid
deriving DecidableEq, Repr

/-- The wire tag of a kind (`MessageKind as u8` in the source). -/
def MessageKind.tag : MessageKind → Nat
  | .Instant => 0
  | .Reliable => 1
  | .Ordered => 2
  | .Invalid => 3

/-- The source `Message` struct: kind, 12-bit order id (stored in a u16),
8-bit size and the payload bytes. -/
structure Message where
  kind : MessageKind
  order : Nat
  size : Nat
  data : List Nat
deriving DecidableEq, Repr

/-- Wrapping `usize` subtraction `a - b` (the source is built in release
mode, where integer overflow wraps); both operands are reduced mod
`2^64` first. -/
def usizeSub (a b : Nat) : Nat :=
  (a % 2 ^ 64 + (2 ^ 64 - b % 2 ^ 64)) % 2 ^ 64

/-- The bytes appended for one message by `write_message`: byte 0 is
`((order & 0x0F00) >> 4) as u8 | kind as u8`, byte 1 is `order as u8`,
byte 2 the (already 8-bit) size, then the payload. -/
def encodeMessage (m : Message) : List Nat :=
  (((m.order &&& 0x0F00) >>> 4) ||| m.kind.tag) :: (m.order % 256) :: m.size :: m.data

/-- Decoding of the low 4 bits of header byte 0 into a kind
(`match packet[index] & 0x0F` in `messages_from_packet`). -/
def kindOfTag (t : Nat) : MessageKind :=
  match t with
  | 0 => .Instant
  | 1 => .Reliable
  | 2 => .Ordered
  | _ => .Invalid

/-- `messages_from_packet`: repeatedly read a 3-byte header and
`min(size, remaining)` payload bytes while at least 3 bytes remain.
The loop over `index` into the fixed buffer is expressed as structural
recursion on the remaining suffix (the source advances
`index += size + MESSAGE_HEADER_BYTES`, i.e. drops the 3 header bytes and
`size` payload bytes). `size as u8` in the struct literal is `b2 % 256`;
the slice bound `min(index + 3 + size, available)` is `List.take b2`. -/
def messagesFromPacket : List Nat → List Message
  | b0 :: b1 :: b2 :: rest =>
    let order_high := (b0 &&& 0xF0) <<< 4
    let order_low := b1
    Message.mk (kindOfTag (b0 &&& 0x0F)) (order_high ||| order_low) (b2 % 256)
        (rest.take b2) :: messagesFromPacket (rest.drop b2)
  | _ => []
termination_by packet => packet.length
decreasing_by
  simp only [List.length_drop, List.length_cons]
  omega

-- Bitwise facts used to relate the bit operations of the codec to div/mod
-- arithmetic.

theorem and_div_pow (a b n : Nat) : (a &&& b) / 2 ^ n = a / 2 ^ n &&& b / 2 ^ n := by
  induction n with
  | zero => simp
  | succ n ih =>
    rw [Nat.pow_succ, ← Nat.div_div_eq_div_mul, ih, Nat.and_div_two,
      Nat.div_div_eq_div_mul, Nat.div_div_eq_div_mul, ← Nat.pow_succ]

theorem or_div_pow (a b n : Nat) : (a ||| b) / 2 ^ n = a / 2 ^ n ||| b / 2 ^ n := by
  induction n with
  | zero => simp
  | succ n ih =>
    rw [Nat.pow_succ, ← Nat.div_div_eq_div_mul, ih, Nat.or_div_two,
      Nat.div_div_eq_div_mul, Nat.div_div_eq_div_mul, ← Nat.pow_succ]

theorem and_mod_pow (a b n : Nat) : (a &&& b) % 2 ^ n = a % 2 ^ n &&& b % 2 ^ n := by
  rw [← Nat.and_pow_two_sub_one_eq_mod a, ← Nat.and_pow_two_sub_one_eq_mod b,
    ← Nat.and_pow_two_sub_one_eq_mod (a &&& b)]
  apply Nat.eq_of_testBit_eq
  intro i
  simp only [Nat.testBit_and]
  cases a.testBit i <;> cases b.testBit i <;> cases (2 ^ n - 1).testBit i <;> rfl

theorem or_mod_pow (a b n : Nat) : (a ||| b) % 2 ^ n = a % 2 ^ n ||| b % 2 ^ n := by
  rw [← Nat.and_pow_two_sub_one_eq_mod a, ← Nat.and_pow_two_sub_one_eq_mod b,
    ← Nat.and_pow_two_sub_one_eq_mod (a ||| b), Nat.and_distrib_right]

theorem land_three (s : Nat) (h : s < 4096) : s &&& 3840 = s / 256 * 256 := by
  have h1 : (s &&& 3840) / 256 = s / 256 := by
    have hd := and_div_pow s 3840 8
    norm_num at hd
    rw [hd, show (15 : Nat) = 2 ^ 4 - 1 by norm_num, Nat.and_pow_two_sub_one_eq_mod,
      Nat.mod_eq_of_lt (by omega)]
  have h2 : (s &&& 3840) % 256 = 0 := by
    have hm := and_mod_pow s 3840 8
    norm_num at hm
    exact hm
  omega

theorem lor_low (h : Nat) (hh : h < 16) (t : Nat) (ht : t < 16) :
    h * 16 ||| t = h * 16 + t := by
  have h1 : (h * 16 ||| t) / 16 = h := by
    have hd := or_div_pow (h * 16) t 4
    norm_num at hd
    rw [hd, Nat.div_eq_of_lt ht, Nat.or_zero]
  have h2 : (h * 16 ||| t) % 16 = t := by
    have hm := or_mod_pow (h * 16) t 4
    norm_num at hm
    rw [hm, Nat.mod_eq_of_lt ht]
  omega

theorem land_fifteen (h : Nat) (hh : h < 16) (t : Nat) (ht : t < 16) :
    (h * 16 + t) &&& 15 = t := by
  rw [show (15 : Nat) = 2 ^ 4 - 1 by norm_num, Nat.and_pow_two_sub_one_eq_mod]
  omega

theorem land_twoforty (h : Nat) (hh : h < 16) (t : Nat) (ht : t < 16) :
    (h * 16 + t) &&& 240 = h * 16 := by
  have h1 : ((h * 16 + t) &&& 240) / 16 = h := by
    have hd := and_div_pow (h * 16 + t) 240 4
    norm_num at hd
    rw [hd, show (h * 16 + t) / 16 = h by omega,
      show (15 : Nat) = 2 ^ 4 - 1 by norm_num, Nat.and_pow_two_sub_one_eq_mod]
    omega
  have h2 : ((h * 16 + t) &&& 240) % 16 = 0 := by
    have hm := and_mod_pow (h * 16 + t) 240 4
    norm_num at hm
    exact hm
  omega

theorem lor_high (h : Nat) (hh : h < 16) (l : Nat) (hl : l < 256) :
    h * 256 ||| l = h * 256 + l := by
  have h1 : (h * 256 ||| l) / 256 = h := by
    have hd := or_div_pow (h * 256) l 8
    norm_num at hd
    rw [hd, Nat.div_eq_of_lt hl, Nat.or_zero]
  have h2 : (h * 256 ||| l) % 256 = l := by
    have hm := or_mod_pow (h * 256) l 8
    norm_num at hm
    rw [hm, Nat.mod_eq_of_lt hl]
  omega

-- Codec facts.

theorem tag_lt (k : MessageKind) : k.tag < 16 := by
  cases k <;> simp [MessageKind.tag]

theorem kindOfTag_tag (k : MessageKind) : kindOfTag k.tag = k := by
  cases k <;> rfl

/-- Value of the first header byte written by `write_message` for an
order id inside the 12-bit window. -/
theorem byte0_eq (order : Nat) (t : Nat) (ho : order < 4096) (ht : t < 16) :
    ((order &&& 0x0F00) >>> 4) ||| t = order / 256 * 16 + t := by
  rw [show (0x0F00 : Nat) = 3840 from rfl, land_three order ho,
    Nat.shiftRight_eq_div_pow]
  rw [show order / 256 * 256 / 2 ^ 4 = order / 256 * 16 by omega]
  exact lor_low _ (by omega) _ ht

/-- One decoding step of `messages_from_packet` (its loop body). -/
theorem messagesFromPacket_cons (b0 b1 b2 : Nat) (rest : List Nat) :
    messagesFromPacket (b0 :: b1 :: b2 :: rest) =
      Message.mk (kindOfTag (b0 &&& 0x0F)) (((b0 &&& 0xF0) <<< 4) ||| b1) (b2 % 256)
          (rest.take b2) :: messagesFromPacket (rest.drop b2) := by
  rw [messagesFromPacket]

theorem messagesFromPacket_nil : messagesFromPacket [] = [] := by
  rw [messagesFromPacket]
  simp

theorem messagesFromPacket_short (p : List Nat) (h : p.length < 3) :
    messagesFromPacket p = [] := by
  match p, h with
  | [], _ => rw [messagesFromPacket]; simp
  | [a], _ => rw [messagesFromPacket]; simp
  | [a, b], _ => rw [messagesFromPacket]; simp

/-- Core codec round-trip: decoding a buffer that starts with the encoding
of a well-formed message yields that message followed by the decoding of
the remainder of the buffer. -/
theorem decode_encode (m : Message) (rest : List Nat) (ho : m.order < 4096)
    (hsz : m.size = m.data.length) (hlen : m.data.length ≤ 255) :
    messagesFromPacket (encodeMessage m ++ rest) = m :: messagesFromPacket rest := by
  have hh : m.order / 256 < 16 := by omega
  have hb0 := byte0_eq m.order m.kind.tag ho (tag_lt m.kind)
  show messagesFromPacket
      ((((m.order &&& 0x0F00) >>> 4) ||| m.kind.tag) :: (m.order % 256) :: m.size
        :: (m.data ++ rest)) = _
  rw [messagesFromPacket_cons, hb0]
  rw [show (0x0F : Nat) = 15 from rfl, show (0xF0 : Nat) = 240 from rfl]
  rw [land_fifteen _ hh _ (tag_lt m.kind), kindOfTag_tag,
    land_twoforty _ hh _ (tag_lt m.kind), Nat.shiftLeft_eq]
  rw [show m.order / 256 * 16 * 2 ^ 4 = m.order / 256 * 256 by omega]
  rw [lor_high _ hh _ (Nat.mod_lt _ (by omega))]
  rw [show m.order / 256 * 256 + m.order % 256 = m.order by omega]
  rw [Nat.mod_eq_of_lt (by omega : m.size < 256)]
  rw [List.take_left' hsz.symm, List.drop_left' hsz.symm]

/-- Modelled from the spec: the `Config` type (`src/shared/config.rs` is not
part of the provided sources; only its three quota fields are consumed
here).  Spec §6: "three quota percentages (Instant/Reliable/Ordered), each
a value in `[0,100]`".  The fields are `f32` in the Rust source; they are
modelled as natural-number percentages, and the quota byte computation
`(available as f32 / 100.0 * quota) as usize` (truncation toward zero) is
modelled as exact floor division `available * quota / 100`.  The two
computations agree at every concrete budget used in this development
(60, 64, 100, 2000, 2048 bytes, integer percentages), but NOT at every
budget: `f32` rounding can push a computed quota above `available`
(e.g. `available = 2^32 - 256` with quota `100.0` computes to `2^32`).
Theorems that depend on the exact value of a quota byte budget are
therefore stated over `sendPacketCore`, which takes the three computed
byte budgets as arguments and is exact with respect to the source. -/
structure Config where
  message_quota_instant : Nat
  message_quota_reliable : Nat
  message_quota_ordered : Nat
deriving DecidableEq, Repr

/-- The `MessageQueue` struct.  The `BinaryHeap` field `o_recv_heap` is
modelled as a list sorted by `order` ascending (see the header comment). -/
structure MessageQueue where
  config : Config
  local_order_id : Nat
  remote_order_id : Nat
  i_queue : List Message
  r_queue : List Message
  o_queue : List Message
  recv_queue : List Message
  o_recv_heap : List Message
deriving DecidableEq, Repr

/-- `MessageQueue::new`. -/
def MessageQueue.new (config : Config) : MessageQueue :=
  ⟨config, 0, 0, [], [], [], [], []⟩

/-- `MessageQueue::received`: the consuming iterator over the receive
queue, modelled as the full drain it performs — it yields the payloads of
`recv_queue` front to back, removing each message as it is yielded. -/
def MessageQueue.received (q : MessageQueue) : List (List Nat) × MessageQueue :=
  (q.recv_queue.map Message.data, { q with recv_queue := [] })

/-- `MessageQueue::send`.  `data.len() as u8` is `data.length % 256`.  The
`u16` increment of `local_order_id` cannot overflow because the id is
reset to 0 as soon as it reaches `MAX_ORDER_ID = 4096`. -/
def MessageQueue.send (q : MessageQueue) (kind : MessageKind) (data : List Nat) :
    MessageQueue :=
  let message : Message := ⟨kind, q.local_order_id, data.length % 256, data⟩
  match kind with
  | .Instant => { q with i_queue := q.i_queue ++ [message] }
  | .Reliable => { q with r_queue := q.r_queue ++ [message] }
  | .Ordered =>
    let l := q.local_order_id + 1
    { q with o_queue := q.o_queue ++ [message],
             local_order_id := if l = MAX_ORDER_ID then 0 else l }
  | .Invalid => q

/-- Result of one `write_message` call: the updated queue, packet and
`written` counter, and the returned flag. -/
structure WriteResult where
  queue : List Message
  packet : List Nat
  written : Nat
  wrote : Bool
deriving DecidableEq, Repr

/-- `write_message`: if the queue is nonempty and the head message's
`required = size + MESSAGE_HEADER_BYTES` bytes fit into
`available - written` (wrapping `usize` subtraction), pop it, append its
encoding to the packet, add `required` to `written` and return `true`;
otherwise leave everything unchanged and return `false`. -/
def writeMessage (queue : List Message) (packet : List Nat) (available written : Nat) :
    WriteResult :=
  match queue with
  | [] => ⟨[], packet, written, false⟩
  | m :: rest =>
    let required := m.size + MESSAGE_HEADER_BYTES
    if required > usizeSub available written then
      ⟨m :: rest, packet, written, false⟩
    else
      ⟨rest, packet ++ encodeMessage m, written + required, true⟩

/-- The `while write_message(..) {}` loop of `write_messages`, with the
loop-local `used` counter threaded through (structural recursion on the
queue: every iteration that continues pops the head). -/
def writeMessagesLoop : List Message → List Nat → Nat → Nat →
    List Message × List Nat × Nat
  | [], packet, _, used => ([], packet, used)
  | m :: rest, packet, available, used =>
    if m.size + MESSAGE_HEADER_BYTES > usizeSub available used then
      (m :: rest, packet, used)
    else
      writeMessagesLoop rest (packet ++ encodeMessage m) available
        (used + (m.size + MESSAGE_HEADER_BYTES))

/-- `writeMessagesLoop` is the iteration of `writeMessage` (fidelity of
the loop model to the loop body). -/
theorem writeMessagesLoop_eq (queue : List Message) (packet : List Nat)
    (available used : Nat) :
    writeMessagesLoop queue packet available used =
      (match writeMessage queue packet available used with
        | ⟨q, p, u, true⟩ => writeMessagesLoop q p available u
        | ⟨q, p, u, false⟩ => (q, p, u)) := by
  match queue with
  | [] => rfl
  | m :: rest =>
    rw [writeMessagesLoop, writeMessage]
    by_cases h : m.size + MESSAGE_HEADER_BYTES > usizeSub available used <;>
      simp [h]

/-- `write_messages`: run the loop with a fresh `used` counter, then add
`used` to the caller's `written` counter. -/
def writeMessages (queue : List Message) (packet : List Nat)
    (available written : Nat) : List Message × List Nat × Nat :=
  let r := writeMessagesLoop queue packet available 0
  (r.1, r.2.1, written + r.2.2)

theorem writeMessage_queue_le (q : List Message) (p : List Nat) (a w : Nat) :
    (writeMessage q p a w).queue.length ≤ q.length := by
  match q with
  | [] => simp [writeMessage]
  | m :: rest =>
    rw [writeMessage]
    by_cases h : m.size + MESSAGE_HEADER_BYTES > usizeSub a w <;> simp [h]

theorem writeMessage_queue_lt (q : List Message) (p : List Nat) (a w : Nat)
    (h : (writeMessage q p a w).wrote = true) :
    (writeMessage q p a w).queue.length < q.length := by
  match q with
  | [] => simp [writeMessage] at h
  | m :: rest =>
    rw [writeMessage] at h ⊢
    by_cases hf : m.size + MESSAGE_HEADER_BYTES > usizeSub a w
    · simp [hf] at h
    · simp [hf]

/-- The fill pass of `send_packet`: one round tries to write one message
of each kind (Instant, then Reliable, then Ordered) against the full
`available` budget; rounds repeat while at least one write succeeded. -/
def fillLoop (iq rq oq : List Message) (packet : List Nat) (available written : Nat) :
    List Message × List Message × List Message × List Nat × Nat :=
  let r1 := writeMessage iq packet available written
  let r2 := writeMessage rq r1.packet available r1.written
  let r3 := writeMessage oq r2.packet available r2.written
  if h : r1.wrote || r2.wrote || r3.wrote then
    fillLoop r1.queue r2.queue r3.queue r3.packet available r3.written
  else
    (r1.queue, r2.queue, r3.queue, r3.packet, r3.written)
termination_by iq.length + rq.length + oq.length
decreasing_by
  have l1 := writeMessage_queue_le iq packet available written
  have l2 := writeMessage_queue_le rq
    (writeMessage iq packet available written).packet available
    (writeMessage iq packet available written).written
  have l3 := writeMessage_queue_le oq
    (writeMessage rq (writeMessage iq packet available written).packet available
      (writeMessage iq packet available written).written).packet available
    (writeMessage rq (writeMessage iq packet available written).packet available
      (writeMessage iq packet available written).written).written
  rcases Bool.or_eq_true_iff.mp h with h' | h3
  · rcases Bool.or_eq_true_iff.mp h' with h1 | h2
    · have g1 := writeMessage_queue_lt iq packet available written h1
      omega
    · have g2 := writeMessage_queue_lt rq
        (writeMessage iq packet available written).packet available
        (writeMessage iq packet available written).written h2
      omega
  · have g3 := writeMessage_queue_lt oq
      (writeMessage rq (writeMessage iq packet available written).packet available
        (writeMessage iq packet available written).written).packet available
      (writeMessage rq (writeMessage iq packet available written).packet available
        (writeMessage iq packet available written).written).written h3
    omega

/-- `MessageQueue::send_packet` on explicit queues: the quota pass in the
fixed order Instant → Reliable → Ordered, followed by the fill pass. -/
def sendPacketCore (iq rq oq : List Message) (packet : List Nat)
    (available qi qr qo : Nat) :
    List Message × List Message × List Message × List Nat :=
  let w1 := writeMessages iq packet qi 0
  let w2 := writeMessages rq w1.2.1 qr w1.2.2
  let w3 := writeMessages oq w2.2.1 qo w2.2.2
  let f := fillLoop w1.1 w2.1 w3.1 w3.2.1 available w3.2.2
  (f.1, f.2.1, f.2.2.1, f.2.2.2.1)

/-- `MessageQueue::send_packet`: serializes queued messages into the
`available` space, returning the updated queue and the extended packet
buffer.  The per-kind quota byte budgets are
`(available as f32 / 100.0 * quota) as usize` in the source, modelled
here as `available * quota / 100`; see `Config` for where the two agree
and differ — statements sensitive to the budgets' exact values are made
about `sendPacketCore` directly. -/
def MessageQueue.send_packet (q : MessageQueue) (packet : List Nat) (available : Nat) :
    MessageQueue × List Nat :=
  let r := sendPacketCore q.i_queue q.r_queue q.o_queue packet available
    (available * q.config.message_quota_instant / 100)
    (available * q.config.message_quota_reliable / 100)
    (available * q.config.message_quota_ordered / 100)
  ({ q with i_queue := r.1, r_queue := r.2.1, o_queue := r.2.2.1 }, r.2.2.2)

/-- `order_is_more_recent`: half-window circular comparison over
`MAX_ORDER_ID` (the `u16` subtractions are guarded by the `>` tests). -/
def order_is_more_recent (a b : Nat) : Bool :=
  (decide (a > b) && decide (a - b ≤ MAX_ORDER_ID / 2))
    || (decide (b > a) && decide (b - a > MAX_ORDER_ID / 2))

/-- `BinaryHeap::push` on the sorted-list model of the min-heap. -/
def heapPush : List Message → Message → List Message
  | [], m => [m]
  | x :: xs, m => if m.order < x.order then m :: x :: xs else x :: heapPush xs m

/-- The drain loop of `receive_ordered_message`: while the minimum entry
of the heap carries the expected order id, pop it into the receive queue
and advance (and wrap) the expected id. -/
def drainHeap : List Message → List Message → Nat → List Message × List Message × Nat
  | [], recv, rid => ([], recv, rid)
  | m :: rest, recv, rid =>
    if m.order = rid then
      let rid' := if rid + 1 = MAX_ORDER_ID then 0 else rid + 1
      drainHeap rest (recv ++ [m]) rid'
    else
      (m :: rest, recv, rid)

/-- `MessageQueue::receive_ordered_message`. -/
def MessageQueue.receive_ordered_message (q : MessageQueue) (m : Message) :
    MessageQueue :=
  if m.order = q.remote_order_id then
    let rid := if q.remote_order_id + 1 = MAX_ORDER_ID then 0 else q.remote_order_id + 1
    let r := drainHeap q.o_recv_heap (q.recv_queue ++ [m]) rid
    { q with o_recv_heap := r.1, recv_queue := r.2.1, remote_order_id := r.2.2 }
  else if order_is_more_recent m.order q.remote_order_id then
    { q with o_recv_heap := heapPush q.o_recv_heap m }
  else
    q

/-- The loop body of `receive_packet`: route one decoded message. -/
def MessageQueue.receive_message (q : MessageQueue) (m : Message) : MessageQueue :=
  match m.kind with
  | .Instant => { q with recv_queue := q.recv_queue ++ [m] }
  | .Reliable => { q with recv_queue := q.recv_queue ++ [m] }
  | .Ordered => q.receive_ordered_message m
  | .Invalid => q

/-- `MessageQueue::receive_packet`. -/
def MessageQueue.receive_packet (q : MessageQueue) (packet : List Nat) : MessageQueue :=
  (messagesFromPacket packet).foldl MessageQueue.receive_message q

/-- The loop body of `lost_packet`: Instant and Invalid messages of the
lost packet are dropped; Reliable and Ordered ones are pushed onto the
*front* of their pending queues. -/
def MessageQueue.lost_message (q : MessageQueue) (m : Message) : MessageQueue :=
  match m.kind with
  | .Instant => q
  | .Reliable => { q with r_queue := m :: q.r_queue }
  | .Ordered => { q with o_queue := m :: q.o_queue }
  | .Invalid => q

/-- `MessageQueue::lost_packet`. -/
def MessageQueue.lost_packet (q : MessageQueue) (packet : List Nat) : MessageQueue :=
  (messagesFromPacket packet).foldl MessageQueue.lost_message q

/-- `MessageQueue::reset`. -/
def MessageQueue.reset (q : MessageQueue) : MessageQueue :=
  { q with local_order_id := 0, remote_order_id := 0, i_queue := [], r_queue := [],
           o_queue := [], recv_queue := [], o_recv_heap := [] }

/-- The quota percentages of `Config::default()` as exhibited by the unit
tests of the source (Instant 60%, Reliable 20%, Ordered 20%). -/
def cfg0 : Config := ⟨60, 20, 20⟩

/-- `n` consecutive `send(MessageKind::Ordered, vec![])` calls. -/
def sendN (q : MessageQueue) : Nat → MessageQueue
  | 0 => q
  | n + 1 => sendN (q.send .Ordered []) n

theorem send_ordered_local (q : MessageQueue) (d : List Nat)
    (h : q.local_order_id < 4096) :
    (q.send .Ordered d).local_order_id = (q.local_order_id + 1) % 4096 := by
  simp only [MessageQueue.send, MAX_ORDER_ID]
  split <;> omega

theorem sendN_local (q : MessageQueue) (n : Nat) (h : q.local_order_id < 4096) :
    (sendN q n).local_order_id = (q.local_order_id + n) % 4096 := by
  induction n generalizing q with
  | zero => simp [sendN, Nat.mod_eq_of_lt h]
  | succ n ih =>
    rw [sendN, ih _ (by rw [send_ordered_local q [] h]; omega),
      send_ordered_local q [] h]
    omega

theorem sendN_o_queue (q : MessageQueue) (n : Nat) (h : q.local_order_id < 4096) :
    (sendN q n).o_queue = q.o_queue ++
      (List.range n).map (fun k => ⟨.Ordered, (q.local_order_id + k) % 4096, 0, []⟩) := by
  induction n generalizing q with
  | zero => simp [sendN]
  | succ n ih =>
    rw [sendN, ih _ (by rw [send_ordered_local q [] h]; omega)]
    simp only [MessageQueue.send, List.length_nil, Nat.zero_mod, MAX_ORDER_ID]
    rw [List.append_assoc, List.range_succ_eq_map]
    congr 1
    simp only [List.map_cons, List.map_map, List.singleton_append]
    congr 1
    · congr 1
      omega
    · apply List.map_congr_left
      intro k _
      simp only [Function.comp]
      congr 1
      split <;> omega

theorem fillLoop_nil (p : List Nat) (a w : Nat) :
    fillLoop [] [] [] p a w = ([], [], [], p, w) := by
  rw [fillLoop]
  simp [writeMessage]

/-- Decoding a packet that consists of exactly one well-formed encoded
message yields exactly that message. -/
theorem decode_single (m : Message) (ho : m.order < 4096)
    (hsz : m.size = m.data.length) (hlen : m.data.length ≤ 255) :
    messagesFromPacket (encodeMessage m) = [m] := by
  have h := decode_encode m [] ho hsz hlen
  rw [List.append_nil] at h
  rw [h, messagesFromPacket_nil]

-- ----------------------------------------------------------------------
-- Claims
-- ----------------------------------------------------------------------

/-- C1: Codec round-trip — for every message with kind Instant, Reliable
or Ordered, sequence below 4096, and payload of at most 255 bytes whose
`size` equals its length, serializing the message with the packer's
writer (`write_message`, i.e. `encodeMessage`) and decoding the resulting
bytes with `messages_from_packet` yields exactly one message with the
original kind, sequence, size and payload. -/
theorem C1_codec_roundtrip (k : MessageKind) (seq size : Nat) (data : List Nat)
    (hk : k ≠ .Invalid) (hs : seq < 4096) (hsz : size = data.length)
    (hlen : data.length ≤ 255) :
    messagesFromPacket (encodeMessage ⟨k, seq, size, data⟩) = [⟨k, seq, size, data⟩] := by
  have h := decode_encode ⟨k, seq, size, data⟩ [] hs hsz hlen
  rw [List.append_nil] at h
  rw [h, messagesFromPacket_nil]

/-- Witness for C1 at a concrete input. -/
theorem C1_codec_roundtrip_witness :
    messagesFromPacket (encodeMessage ⟨.Ordered, 300, 2, [10, 20]⟩) =
      [⟨.Ordered, 300, 2, [10, 20]⟩] :=
  C1_codec_roundtrip .Ordered 300 2 [10, 20] (by decide) (by decide) rfl (by decide)

/-- C9: Reset — after `reset()` both order-id counters are 0, all five
containers are empty, `send_packet` with any buffer and any available
byte budget appends nothing, and the first Ordered message sent after
the reset carries sequence 0. -/
theorem C9_reset (q : MessageQueue) (packet : List Nat) (available : Nat)
    (d : List Nat) :
    q.reset.local_order_id = 0 ∧ q.reset.remote_order_id = 0 ∧
    q.reset.i_queue = [] ∧ q.reset.r_queue = [] ∧ q.reset.o_queue = [] ∧
    q.reset.recv_queue = [] ∧ q.reset.o_recv_heap = [] ∧
    (q.reset.send_packet packet available).2 = packet ∧
    (q.reset.send .Ordered d).o_queue = [⟨.Ordered, 0, d.length % 256, d⟩] := by
  refine ⟨rfl, rfl, rfl, rfl, rfl, rfl, rfl, ?_, rfl⟩
  simp [MessageQueue.reset, MessageQueue.send_packet, sendPacketCore, writeMessages,
    writeMessagesLoop, fillLoop_nil]

/-- C5 counterexample: from a fresh queue, send one Ordered message and
then one Instant message; packing encodes the Instant message with wire
sequence field 1 (second byte of its header is 1, high nibble of the
first byte is 0), not 0.  The packed bytes are the Instant header
`[0, 1, 0]` followed by the Ordered header `[2, 0, 0]`, and decoding the
packet back confirms the Instant message carries sequence 1. -/
theorem C5_nonzero_sequence_cex :
    ((((MessageQueue.new cfg0).send .Ordered []).send .Instant []).send_packet [] 64).2
        = [0, 1, 0, 2, 0, 0] ∧
      (messagesFromPacket [0, 1, 0, 2, 0, 0]).map (fun m => (m.kind, m.order)) =
        [(.Instant, 1), (.Ordered, 0)] := by
  constructor
  · simp [MessageQueue.send_packet, sendPacketCore, writeMessages, writeMessagesLoop,
      writeMessage, fillLoop, MessageQueue.send, MessageQueue.new, encodeMessage,
      usizeSub, MESSAGE_HEADER_BYTES, MAX_ORDER_ID, MessageKind.tag, cfg0]
  · simp [messagesFromPacket, kindOfTag]
    decide

/-- C5, amended: the 12-bit sequence field written into the wire header
for an Instant or Reliable message equals the sender's `local_order_id`
at the time the message was enqueued — that is, the number of Ordered
messages sent before it, modulo 4096 — rather than always 0. -/
theorem C5_sequence_of_unordered (q : MessageQueue) (k : MessageKind) (d : List Nat)
    (cfg : Config) (n : Nat) (ho : q.local_order_id < 4096) (hd : d.length ≤ 255) :
    (k = .Instant →
      (q.send k d).i_queue = q.i_queue ++ [⟨k, q.local_order_id, d.length % 256, d⟩]) ∧
    (k = .Reliable →
      (q.send k d).r_queue = q.r_queue ++ [⟨k, q.local_order_id, d.length % 256, d⟩]) ∧
    (messagesFromPacket (encodeMessage ⟨k, q.local_order_id, d.length % 256, d⟩)).map
        Message.order = [q.local_order_id] ∧
    (sendN (MessageQueue.new cfg) n).local_order_id = n % 4096 := by
  refine ⟨?_, ?_, ?_, ?_⟩
  · rintro rfl; rfl
  · rintro rfl; rfl
  · have h := decode_encode ⟨k, q.local_order_id, d.length % 256, d⟩ [] ho
      (by simp [Nat.mod_eq_of_lt (by omega : d.length < 256)]) hd
    rw [List.append_nil] at h
    rw [h, messagesFromPacket_nil]
    rfl
  · simpa [MessageQueue.new] using
      sendN_local (MessageQueue.new cfg) n (by simp [MessageQueue.new])

/-- Witness for C5's amended theorem at a concrete input. -/
theorem C5_sequence_of_unordered_witness :
    ((((MessageQueue.new cfg0).send .Ordered []).send .Instant [7]).i_queue =
        [⟨.Instant, 1, 1, [7]⟩]) ∧
      (sendN (MessageQueue.new cfg0) 5).local_order_id = 5 := by
  have h := C5_sequence_of_unordered ((MessageQueue.new cfg0).send .Ordered [])
    .Instant [7] cfg0 5 (by decide) (by decide)
  exact ⟨h.1 rfl, h.2.2.2⟩

/-- C2: Out-of-order reassembly — starting from a fresh queue (expected
sequence 0), receiving Ordered messages carrying sequences 1, then 3,
then 0, then 2 (one packet per receive call), the received-message
iterator yields nothing after the first receive, nothing after the
second, exactly the payloads of sequences 0 and 1 (in that order) after
the third, and exactly the payloads of sequences 2 and 3 (in that order)
after the fourth. -/
theorem C2_out_of_order_reassembly (cfg : Config) (d0 d1 d2 d3 : List Nat)
    (h0 : d0.length ≤ 255) (h1 : d1.length ≤ 255) (h2 : d2.length ≤ 255)
    (h3 : d3.length ≤ 255) :
    (((MessageQueue.new cfg).receive_packet
        (encodeMessage ⟨.Ordered, 1, d1.length % 256, d1⟩)).received.1 = []) ∧
    ((((MessageQueue.new cfg).receive_packet
        (encodeMessage ⟨.Ordered, 1, d1.length % 256, d1⟩)).received.2.receive_packet
        (encodeMessage ⟨.Ordered, 3, d3.length % 256, d3⟩)).received.1 = []) ∧
    (((((MessageQueue.new cfg).receive_packet
        (encodeMessage ⟨.Ordered, 1, d1.length % 256, d1⟩)).received.2.receive_packet
        (encodeMessage ⟨.Ordered, 3, d3.length % 256, d3⟩)).received.2.receive_packet
        (encodeMessage ⟨.Ordered, 0, d0.length % 256, d0⟩)).received.1 = [d0, d1]) ∧
    ((((((MessageQueue.new cfg).receive_packet
        (encodeMessage ⟨.Ordered, 1, d1.length % 256, d1⟩)).received.2.receive_packet
        (encodeMessage ⟨.Ordered, 3, d3.length % 256, d3⟩)).received.2.receive_packet
        (encodeMessage ⟨.Ordered, 0, d0.length % 256, d0⟩)).received.2.receive_packet
        (encodeMessage ⟨.Ordered, 2, d2.length % 256, d2⟩)).received.1 = [d2, d3]) := by
  have e1 : messagesFromPacket (encodeMessage ⟨.Ordered, 1, d1.length % 256, d1⟩) =
      [⟨.Ordered, 1, d1.length % 256, d1⟩] :=
    decode_single _ (by simp)
      (by simp [Nat.mod_eq_of_lt (show d1.length < 256 by omega)]) h1
  have e3 : messagesFromPacket (encodeMessage ⟨.Ordered, 3, d3.length % 256, d3⟩) =
      [⟨.Ordered, 3, d3.length % 256, d3⟩] :=
    decode_single _ (by simp)
      (by simp [Nat.mod_eq_of_lt (show d3.length < 256 by omega)]) h3
  have e0 : messagesFromPacket (encodeMessage ⟨.Ordered, 0, d0.length % 256, d0⟩) =
      [⟨.Ordered, 0, d0.length % 256, d0⟩] :=
    decode_single _ (by simp)
      (by simp [Nat.mod_eq_of_lt (show d0.length < 256 by omega)]) h0
  have e2 : messagesFromPacket (encodeMessage ⟨.Ordered, 2, d2.length % 256, d2⟩) =
      [⟨.Ordered, 2, d2.length % 256, d2⟩] :=
    decode_single _ (by simp)
      (by simp [Nat.mod_eq_of_lt (show d2.length < 256 by omega)]) h2
  have s1 : (MessageQueue.new cfg).receive_packet
      (encodeMessage ⟨.Ordered, 1, d1.length % 256, d1⟩) =
      ⟨cfg, 0, 0, [], [], [], [], [⟨.Ordered, 1, d1.length % 256, d1⟩]⟩ := by
    rw [MessageQueue.receive_packet, e1]
    simp [MessageQueue.new, MessageQueue.receive_message,
      MessageQueue.receive_ordered_message,
      order_is_more_recent, MAX_ORDER_ID, heapPush]
  have s2 : (⟨cfg, 0, 0, [], [], [], [],
        [⟨.Ordered, 1, d1.length % 256, d1⟩]⟩ : MessageQueue).received.2.receive_packet
      (encodeMessage ⟨.Ordered, 3, d3.length % 256, d3⟩) =
      ⟨cfg, 0, 0, [], [], [], [], [⟨.Ordered, 1, d1.length % 256, d1⟩,
        ⟨.Ordered, 3, d3.length % 256, d3⟩]⟩ := by
    simp only [MessageQueue.received]
    rw [MessageQueue.receive_packet, e3]
    simp [MessageQueue.receive_message, MessageQueue.receive_ordered_message,
      order_is_more_recent, MAX_ORDER_ID,
      heapPush]
  have s3 : (⟨cfg, 0, 0, [], [], [], [], [⟨.Ordered, 1, d1.length % 256, d1⟩,
        ⟨.Ordered, 3, d3.length % 256, d3⟩]⟩ : MessageQueue).received.2.receive_packet
      (encodeMessage ⟨.Ordered, 0, d0.length % 256, d0⟩) =
      ⟨cfg, 0, 2, [], [], [], [⟨.Ordered, 0, d0.length % 256, d0⟩,
        ⟨.Ordered, 1, d1.length % 256, d1⟩], [⟨.Ordered, 3, d3.length % 256, d3⟩]⟩ := by
    simp only [MessageQueue.received]
    rw [MessageQueue.receive_packet, e0]
    simp [MessageQueue.receive_message, MessageQueue.receive_ordered_message,
      order_is_more_recent, MAX_ORDER_ID,
      drainHeap]
  have s4 : (⟨cfg, 0, 2, [], [], [], [⟨.Ordered, 0, d0.length % 256, d0⟩,
        ⟨.Ordered, 1, d1.length % 256, d1⟩],
        [⟨.Ordered, 3, d3.length % 256, d3⟩]⟩ : MessageQueue).received.2.receive_packet
      (encodeMessage ⟨.Ordered, 2, d2.length % 256, d2⟩) =
      ⟨cfg, 0, 4, [], [], [], [⟨.Ordered, 2, d2.length % 256, d2⟩,
        ⟨.Ordered, 3, d3.length % 256, d3⟩], []⟩ := by
    simp only [MessageQueue.received]
    rw [MessageQueue.receive_packet, e2]
    simp [MessageQueue.receive_message, MessageQueue.receive_ordered_message,
      order_is_more_recent, MAX_ORDER_ID,
      drainHeap]
  rw [s1, s2, s3, s4]
  simp [MessageQueue.received]

/-- Witness for C2 at concrete payloads. -/
theorem C2_out_of_order_reassembly_witness :
    (((MessageQueue.new cfg0).receive_packet
        (encodeMessage ⟨.Ordered, 1, [1].length % 256, [1]⟩)).received.1 = []) ∧
    ((((MessageQueue.new cfg0).receive_packet
        (encodeMessage ⟨.Ordered, 1, [1].length % 256, [1]⟩)).received.2.receive_packet
        (encodeMessage ⟨.Ordered, 3, [3].length % 256, [3]⟩)).received.1 = []) ∧
    (((((MessageQueue.new cfg0).receive_packet
        (encodeMessage ⟨.Ordered, 1, [1].length % 256, [1]⟩)).received.2.receive_packet
        (encodeMessage ⟨.Ordered, 3, [3].length % 256, [3]⟩)).received.2.receive_packet
        (encodeMessage ⟨.Ordered, 0, [0].length % 256, [0]⟩)).received.1 = [[0], [1]]) ∧
    ((((((MessageQueue.new cfg0).receive_packet
        (encodeMessage ⟨.Ordered, 1, [1].length % 256, [1]⟩)).received.2.receive_packet
        (encodeMessage ⟨.Ordered, 3, [3].length % 256, [3]⟩)).received.2.receive_packet
        (encodeMessage ⟨.Ordered, 0, [0].length % 256, [0]⟩)).received.2.receive_packet
        (encodeMessage ⟨.Ordered, 2, [2].length % 256, [2]⟩)).received.1 = [[2], [3]]) :=
  C2_out_of_order_reassembly cfg0 [0] [1] [2] [3]
    (by decide) (by decide) (by decide) (by decide)

def msgBytes (m : Message) : Nat := m.size + MESSAGE_HEADER_BYTES

def totalBytes (q : List Message) : Nat := (q.map msgBytes).sum

theorem usizeSub_of_le (a b : Nat) (hb : b ≤ a) (ha : a < 2 ^ 64) :
    usizeSub a b = a - b := by
  have h64 : (2 : Nat) ^ 64 = 18446744073709551616 := by norm_num
  unfold usizeSub
  rw [h64] at *
  omega

theorem writeMessagesLoop_all (q : List Message) (p : List Nat) (a u : Nat)
    (ha : a < 2 ^ 64) (hfit : u + totalBytes q ≤ a) :
    writeMessagesLoop q p a u = ([], p ++ (q.map encodeMessage).flatten, u + totalBytes q) := by
  induction q generalizing p u with
  | nil => simp [writeMessagesLoop, totalBytes]
  | cons m rest ih =>
    have hb : totalBytes (m :: rest) = (m.size + MESSAGE_HEADER_BYTES) + totalBytes rest := by
      simp [totalBytes, msgBytes]
    rw [writeMessagesLoop, usizeSub_of_le a u (by omega) ha,
      if_neg (by omega), ih _ _ (by omega)]
    simp
    omega

theorem writeMessages_all (q : List Message) (p : List Nat) (a w : Nat)
    (ha : a < 2 ^ 64) (hfit : totalBytes q ≤ a) :
    writeMessages q p a w = ([], p ++ (q.map encodeMessage).flatten, w + totalBytes q) := by
  rw [writeMessages, writeMessagesLoop_all q p a 0 ha (by omega)]
  simp


theorem sendPacketCore_all (iq rq oq : List Message) (p : List Nat)
    (available qi qr qo : Nat) (hqi : qi < 2 ^ 64) (hqr : qr < 2 ^ 64)
    (hqo : qo < 2 ^ 64) (hfi : totalBytes iq ≤ qi) (hfr : totalBytes rq ≤ qr)
    (hfo : totalBytes oq ≤ qo) :
    sendPacketCore iq rq oq p available qi qr qo =
      ([], [], [], p ++ (iq.map encodeMessage).flatten ++ (rq.map encodeMessage).flatten
        ++ (oq.map encodeMessage).flatten) := by
  rw [sendPacketCore]
  simp only [writeMessages_all iq p qi 0 hqi hfi]
  simp only [writeMessages_all rq _ qr _ hqr hfr]
  simp only [writeMessages_all oq _ qo _ hqo hfo]
  simp [fillLoop_nil]

-- ----------------------------------------------------------------------

/-- C3 counterexample: after `lost_packet` on a packet holding one
Instant, one Reliable and one Ordered message, and one further `send` of
an Instant message, the next `send_packet` emits the newly sent Instant
message *ahead of* the lost Reliable and Ordered messages, so the lost
messages are not emitted ahead of every message sent after the loss
notification.  (The lost Instant message `[5]` is still never emitted.) -/
theorem C3_loss_retransmission_cex :
    ((((MessageQueue.new cfg0).lost_packet
        (encodeMessage ⟨.Instant, 0, 1, [5]⟩ ++ encodeMessage ⟨.Reliable, 0, 1, [6]⟩ ++
          encodeMessage ⟨.Ordered, 0, 1, [7]⟩)).send .Instant [9]).send_packet [] 64).2
        = [0, 0, 1, 9, 1, 0, 1, 6, 2, 0, 1, 7] ∧
      messagesFromPacket [0, 0, 1, 9, 1, 0, 1, 6, 2, 0, 1, 7] =
        [⟨.Instant, 0, 1, [9]⟩, ⟨.Reliable, 0, 1, [6]⟩, ⟨.Ordered, 0, 1, [7]⟩] := by
  constructor
  · simp [MessageQueue.send_packet, sendPacketCore, writeMessages, writeMessagesLoop,
      writeMessage, fillLoop, MessageQueue.send, MessageQueue.new, MessageQueue.lost_packet,
      MessageQueue.lost_message, messagesFromPacket, kindOfTag, encodeMessage, usizeSub,
      MESSAGE_HEADER_BYTES,
      MAX_ORDER_ID, MessageKind.tag, cfg0]
    decide
  · simp [messagesFromPacket, kindOfTag]
    decide

set_option maxHeartbeats 1000000 in
/-- C3, amended: after `lost_packet` on a packet containing one Instant,
one Reliable and one Ordered message, the Instant message is dropped
while the Reliable and Ordered messages are re-inserted at the head of
their pending queues; a subsequent `send_packet` with sufficient budget
emits the lost Reliable message ahead of every *Reliable* message sent
after the loss notification and the lost Ordered message ahead of every
*Ordered* message sent after it (with the Reliable ahead of the Ordered,
matching their relative order in the lost packet), and never emits the
lost Instant message — the emitted packet consists exactly of the
encodings of the newly sent Instant message, the lost Reliable, the new
Reliable, the lost Ordered and the new Ordered, in that order. -/
theorem C3_loss_retransmission (mi mr mo : Message) (dr2 do2 di2 : List Nat)
    (hmi : mi.kind = .Instant) (hmr : mr.kind = .Reliable) (hmo : mo.kind = .Ordered)
    (hoi : mi.order < 4096) (hor : mr.order < 4096) (hoo : mo.order < 4096)
    (hsi : mi.size = mi.data.length) (hsr : mr.size = mr.data.length)
    (hso : mo.size = mo.data.length)
    (hli : mi.data.length ≤ 100) (hlr : mr.data.length ≤ 100) (hlo : mo.data.length ≤ 100)
    (hl2r : dr2.length ≤ 100) (hl2o : do2.length ≤ 100) (hl2i : di2.length ≤ 100) :
    ((MessageQueue.new cfg0).lost_packet
        (encodeMessage mi ++ encodeMessage mr ++ encodeMessage mo)).i_queue = [] ∧
    ((MessageQueue.new cfg0).lost_packet
        (encodeMessage mi ++ encodeMessage mr ++ encodeMessage mo)).r_queue = [mr] ∧
    ((MessageQueue.new cfg0).lost_packet
        (encodeMessage mi ++ encodeMessage mr ++ encodeMessage mo)).o_queue = [mo] ∧
    (((((MessageQueue.new cfg0).lost_packet
        (encodeMessage mi ++ encodeMessage mr ++ encodeMessage mo)).send .Reliable dr2).send
        .Ordered do2).send .Instant di2).send_packet [] 2000 =
      (⟨cfg0, 1, 0, [], [], [], [], []⟩,
        encodeMessage ⟨.Instant, 1, di2.length % 256, di2⟩ ++ encodeMessage mr ++
        encodeMessage ⟨.Reliable, 0, dr2.length % 256, dr2⟩ ++ encodeMessage mo ++
        encodeMessage ⟨.Ordered, 0, do2.length % 256, do2⟩) := by
  have edec : messagesFromPacket (encodeMessage mi ++ encodeMessage mr ++ encodeMessage mo)
      = [mi, mr, mo] := by
    rw [List.append_assoc, decode_encode mi _ hoi hsi (by omega), decode_encode mr _ hor hsr (by omega),
      decode_single mo hoo hso (by omega)]
  have hlost : (MessageQueue.new cfg0).lost_packet
      (encodeMessage mi ++ encodeMessage mr ++ encodeMessage mo) =
      ⟨cfg0, 0, 0, [], [mr], [mo], [], []⟩ := by
    rw [MessageQueue.lost_packet, edec]
    simp [MessageQueue.new, MessageQueue.lost_message, hmi, hmr, hmo]
  rw [hlost]
  refine ⟨rfl, rfl, rfl, ?_⟩
  have hsend : ((((⟨cfg0, 0, 0, [], [mr], [mo], [], []⟩ : MessageQueue).send .Reliable
      dr2).send .Ordered do2).send .Instant di2) =
      ⟨cfg0, 1, 0, [⟨.Instant, 1, di2.length % 256, di2⟩],
        [mr, ⟨.Reliable, 0, dr2.length % 256, dr2⟩],
        [mo, ⟨.Ordered, 0, do2.length % 256, do2⟩], [], []⟩ := by
    simp [MessageQueue.send, MAX_ORDER_ID]
  rw [hsend, MessageQueue.send_packet]
  have hmod_i : di2.length % 256 = di2.length := Nat.mod_eq_of_lt (by omega)
  have hmod_r : dr2.length % 256 = dr2.length := Nat.mod_eq_of_lt (by omega)
  have hmod_o : do2.length % 256 = do2.length := Nat.mod_eq_of_lt (by omega)
  simp only [cfg0]
  norm_num
  rw [sendPacketCore_all _ _ _ _ _ _ _ _ (by norm_num) (by norm_num) (by norm_num)
    (by simp [totalBytes, msgBytes, MESSAGE_HEADER_BYTES, hmod_i]; omega)
    (by simp [totalBytes, msgBytes, MESSAGE_HEADER_BYTES, hmod_r]; omega)
    (by simp [totalBytes, msgBytes, MESSAGE_HEADER_BYTES, hmod_o]; omega)]
  simp [List.append_assoc]

/-- Witness for C3's amended theorem at concrete messages. -/
theorem C3_loss_retransmission_witness :
    (((((MessageQueue.new cfg0).lost_packet
        (encodeMessage ⟨.Instant, 0, 1, [5]⟩ ++ encodeMessage ⟨.Reliable, 0, 1, [6]⟩ ++
          encodeMessage ⟨.Ordered, 0, 1, [7]⟩)).send .Reliable [8]).send
        .Ordered [4]).send .Instant [9]).send_packet [] 2000 =
      (⟨cfg0, 1, 0, [], [], [], [], []⟩,
        encodeMessage ⟨.Instant, 1, 1, [9]⟩ ++ encodeMessage ⟨.Reliable, 0, 1, [6]⟩ ++
        encodeMessage ⟨.Reliable, 0, 1, [8]⟩ ++ encodeMessage ⟨.Ordered, 0, 1, [7]⟩ ++
        encodeMessage ⟨.Ordered, 0, 1, [4]⟩) :=
  (C3_loss_retransmission ⟨.Instant, 0, 1, [5]⟩ ⟨.Reliable, 0, 1, [6]⟩
    ⟨.Ordered, 0, 1, [7]⟩ [8] [4] [9] rfl rfl rfl (by decide) (by decide) (by decide)
    rfl rfl rfl (by decide) (by decide) (by decide) (by decide) (by decide)
    (by decide)).2.2.2

set_option maxHeartbeats 1000000 in
/-- C10 (implicit): when a lost packet contains two Reliable and two
Ordered messages, the per-message head insertion of `lost_packet`
reverses their relative order within each kind's pending queue, and a
subsequent `send_packet` with sufficient budget emits them in the
reverse of their order in the lost packet (within each kind). -/
theorem C10_same_kind_loss_reversal (r1 r2 o1 o2 : Message)
    (hk1 : r1.kind = .Reliable) (hk2 : r2.kind = .Reliable)
    (hk3 : o1.kind = .Ordered) (hk4 : o2.kind = .Ordered)
    (ho1 : r1.order < 4096) (ho2 : r2.order < 4096)
    (ho3 : o1.order < 4096) (ho4 : o2.order < 4096)
    (hs1 : r1.size = r1.data.length) (hs2 : r2.size = r2.data.length)
    (hs3 : o1.size = o1.data.length) (hs4 : o2.size = o2.data.length)
    (hl1 : r1.data.length ≤ 100) (hl2 : r2.data.length ≤ 100)
    (hl3 : o1.data.length ≤ 100) (hl4 : o2.data.length ≤ 100) :
    ((MessageQueue.new cfg0).lost_packet (encodeMessage r1 ++ encodeMessage r2 ++
        encodeMessage o1 ++ encodeMessage o2)).r_queue = [r2, r1] ∧
    ((MessageQueue.new cfg0).lost_packet (encodeMessage r1 ++ encodeMessage r2 ++
        encodeMessage o1 ++ encodeMessage o2)).o_queue = [o2, o1] ∧
    ((MessageQueue.new cfg0).lost_packet (encodeMessage r1 ++ encodeMessage r2 ++
        encodeMessage o1 ++ encodeMessage o2)).send_packet [] 2000 =
      (⟨cfg0, 0, 0, [], [], [], [], []⟩,
        encodeMessage r2 ++ encodeMessage r1 ++ encodeMessage o2 ++ encodeMessage o1) := by
  have edec : messagesFromPacket (encodeMessage r1 ++ encodeMessage r2 ++
      encodeMessage o1 ++ encodeMessage o2) = [r1, r2, o1, o2] := by
    rw [List.append_assoc, List.append_assoc,
      decode_encode r1 _ ho1 hs1 (by omega), decode_encode r2 _ ho2 hs2 (by omega),
      decode_encode o1 _ ho3 hs3 (by omega), decode_single o2 ho4 hs4 (by omega)]
  have hlost : (MessageQueue.new cfg0).lost_packet (encodeMessage r1 ++ encodeMessage r2 ++
      encodeMessage o1 ++ encodeMessage o2) = ⟨cfg0, 0, 0, [], [r2, r1], [o2, o1], [], []⟩ := by
    rw [MessageQueue.lost_packet, edec]
    simp [MessageQueue.new, MessageQueue.lost_message, hk1, hk2, hk3, hk4]
  rw [hlost]
  refine ⟨rfl, rfl, ?_⟩
  rw [MessageQueue.send_packet]
  simp only [cfg0]
  norm_num
  rw [sendPacketCore_all _ _ _ _ _ _ _ _ (by norm_num) (by norm_num) (by norm_num)
    (by simp [totalBytes])
    (by simp [totalBytes, msgBytes, MESSAGE_HEADER_BYTES]; omega)
    (by simp [totalBytes, msgBytes, MESSAGE_HEADER_BYTES]; omega)]
  simp [List.append_assoc]

/-- Witness for C10 at concrete messages. -/
theorem C10_same_kind_loss_reversal_witness :
    ((MessageQueue.new cfg0).lost_packet (encodeMessage ⟨.Reliable, 0, 1, [1]⟩ ++
        encodeMessage ⟨.Reliable, 0, 1, [2]⟩ ++ encodeMessage ⟨.Ordered, 0, 1, [3]⟩ ++
        encodeMessage ⟨.Ordered, 1, 1, [4]⟩)).send_packet [] 2000 =
      (⟨cfg0, 0, 0, [], [], [], [], []⟩,
        encodeMessage ⟨.Reliable, 0, 1, [2]⟩ ++ encodeMessage ⟨.Reliable, 0, 1, [1]⟩ ++
        encodeMessage ⟨.Ordered, 1, 1, [4]⟩ ++ encodeMessage ⟨.Ordered, 0, 1, [3]⟩) :=
  (C10_same_kind_loss_reversal ⟨.Reliable, 0, 1, [1]⟩ ⟨.Reliable, 0, 1, [2]⟩
    ⟨.Ordered, 0, 1, [3]⟩ ⟨.Ordered, 1, 1, [4]⟩ rfl rfl rfl rfl
    (by decide) (by decide) (by decide) (by decide) rfl rfl rfl rfl
    (by decide) (by decide) (by decide) (by decide)).2.2

/-- Receiving the in-order Ordered messages with sequences
`0 % 4096, 1 % 4096, ..., (n-1) % 4096` (one packet each, empty payloads)
into a fresh queue. -/
def recvUpTo (n : Nat) : MessageQueue :=
  (List.range n).foldl
    (fun q k => q.receive_packet (encodeMessage ⟨.Ordered, k % 4096, 0, []⟩))
    (MessageQueue.new cfg0)

theorem recv_unfold (n : Nat) :
    recvUpTo (n + 1) = (recvUpTo n).receive_packet
      (encodeMessage ⟨.Ordered, n % 4096, 0, []⟩) := by
  rw [recvUpTo, List.range_succ, List.foldl_append]
  rw [show (List.range n).foldl
      (fun q k => q.receive_packet (encodeMessage ⟨.Ordered, k % 4096, 0, []⟩))
      (MessageQueue.new cfg0) = recvUpTo n from rfl]
  simp only [List.foldl_cons, List.foldl_nil]

theorem recvUpTo_state (n : Nat) :
    recvUpTo n = ⟨cfg0, 0, n % 4096, [], [], [],
      (List.range n).map (fun k => ⟨.Ordered, k % 4096, 0, []⟩), []⟩ := by
  induction n with
  | zero => simp [recvUpTo, MessageQueue.new]
  | succ n ih =>
    rw [recv_unfold n, ih, MessageQueue.receive_packet,
      decode_single ⟨.Ordered, n % 4096, 0, []⟩ (by simp [Nat.mod_lt]) (by simp) (by simp)]
    simp only [List.foldl_cons, List.foldl_nil, MessageQueue.receive_message]
    rw [MessageQueue.receive_ordered_message]
    simp [drainHeap, MAX_ORDER_ID, List.range_succ]
    split <;> omega

theorem recv_step_4096 :
    (recvUpTo 4096).receive_packet (encodeMessage ⟨.Ordered, 0, 0, []⟩) = recvUpTo 4097 := by
  rw [show (4097 : Nat) = 4096 + 1 from rfl, recv_unfold 4096, Nat.mod_self]

/-- C6 counterexample: the 4096th Ordered message sent from a fresh queue
carries sequence 4095, not 0 (the first 4096 sends carry sequences 0
through 4095; it is the 4097th send that reuses 0). -/
theorem C6_wraparound_cex :
    ((sendN (MessageQueue.new cfg0) 4096).o_queue.map Message.order).getLast? = some 4095 ∧
      (4095 : Nat) ≠ 0 := by
  constructor
  · rw [sendN_o_queue _ _ (by simp [MessageQueue.new])]
    simp only [MessageQueue.new, List.nil_append, List.map_map]
    rw [show (4096 : Nat) = 4095 + 1 from rfl, List.range_succ]
    simp only [List.map_append, List.map_cons, List.map_nil, List.getLast?_concat]
    norm_num
  · decide

/-- C6, amended: sending 4096 consecutive Ordered messages from a fresh
queue assigns sequences 0..4095 and wraps the outgoing counter back to 0,
so the *next* (4097th) Ordered message reuses sequence 0; on the receive
side, after the 4096 in-order Ordered messages with sequences 0..4095
have been delivered the expected sequence is 0 again, and a further
Ordered message carrying the reused sequence 0 is delivered immediately
(appended to the ready queue, with the expected sequence advancing to 1),
not dropped as a duplicate or stale message. -/
theorem C6_wraparound :
    (sendN (MessageQueue.new cfg0) 4096).local_order_id = 0 ∧
    ((sendN (MessageQueue.new cfg0) 4097).o_queue.map Message.order).getLast? = some 0 ∧
    (recvUpTo 4096).remote_order_id = 0 ∧
    ((recvUpTo 4096).receive_packet (encodeMessage ⟨.Ordered, 0, 0, []⟩)).recv_queue =
      (recvUpTo 4096).recv_queue ++ [⟨.Ordered, 0, 0, []⟩] ∧
    ((recvUpTo 4096).receive_packet (encodeMessage ⟨.Ordered, 0, 0, []⟩)).remote_order_id
      = 1 := by
  refine ⟨?_, ?_, ?_, ?_, ?_⟩
  · rw [sendN_local _ _ (by simp [MessageQueue.new])]
    simp [MessageQueue.new]
  · rw [sendN_o_queue _ _ (by simp [MessageQueue.new])]
    simp only [MessageQueue.new, List.nil_append, List.map_map]
    rw [show (4097 : Nat) = 4096 + 1 from rfl, List.range_succ]
    simp only [List.map_append, List.map_cons, List.map_nil, List.getLast?_concat]
    norm_num
  · have h := congrArg MessageQueue.remote_order_id (recvUpTo_state 4096)
    simp only at h
    exact h
  · have h1 := congrArg MessageQueue.recv_queue recv_step_4096
    have h2 := congrArg MessageQueue.recv_queue (recvUpTo_state 4097)
    have h3 := congrArg MessageQueue.recv_queue (recvUpTo_state 4096)
    simp only at h1 h2 h3
    rw [h1, h2, h3, List.range_succ 4096]
    simp only [List.map_append, List.map_cons, List.map_nil]
  · have h1 := congrArg MessageQueue.remote_order_id recv_step_4096
    have h2 := congrArg MessageQueue.remote_order_id (recvUpTo_state 4097)
    simp only at h1 h2
    rw [h1, h2]

-- Membership lemmas for the receive-side containers.

theorem heapPush_mem (h : List Message) (m x : Message) :
    x ∈ heapPush h m → x ∈ h ∨ x = m := by
  induction h with
  | nil =>
    intro hx
    simp [heapPush] at hx
    simp [hx]
  | cons y ys ih =>
    intro hx
    rw [heapPush] at hx
    by_cases hc : m.order < y.order
    · rw [if_pos hc] at hx
      rcases List.mem_cons.mp hx with h' | h'
      · right; exact h'
      · left; exact h'
    · rw [if_neg hc] at hx
      rcases List.mem_cons.mp hx with h' | h'
      · left; simp [h']
      · rcases ih h' with h'' | h''
        · left; simp [h'']
        · right; exact h''

theorem drainHeap_heap_mem (h : List Message) (rid : Nat) (x : Message) :
    ∀ r : List Message, x ∈ (drainHeap h r rid).1 → x ∈ h := by
  induction h generalizing rid with
  | nil =>
    intro r hx
    simpa [drainHeap] using hx
  | cons y ys ih =>
    intro r hx
    rw [drainHeap] at hx
    by_cases hc : y.order = rid
    · rw [if_pos hc] at hx
      right
      exact ih _ _ hx
    · rw [if_neg hc] at hx
      exact hx

theorem drainHeap_recv_mem (h : List Message) (rid : Nat) (x : Message) :
    ∀ r : List Message, x ∈ (drainHeap h r rid).2.1 → x ∈ r ∨ x ∈ h := by
  induction h generalizing rid with
  | nil =>
    intro r hx
    left
    simpa [drainHeap] using hx
  | cons y ys ih =>
    intro r hx
    rw [drainHeap] at hx
    by_cases hc : y.order = rid
    · rw [if_pos hc] at hx
      rcases ih _ _ hx with h' | h'
      · rcases List.mem_append.mp h' with h'' | h''
        · left; exact h''
        · right; simp at h''; simp [h'']
      · right; simp [h']
    · rw [if_neg hc] at hx
      left; exact hx

theorem rom_recv_mem (q : MessageQueue) (m x : Message)
    (hx : x ∈ (q.receive_ordered_message m).recv_queue) :
    x ∈ q.recv_queue ∨ x ∈ q.o_recv_heap ∨ x = m := by
  rw [MessageQueue.receive_ordered_message] at hx
  by_cases h1 : m.order = q.remote_order_id
  · rw [if_pos h1] at hx
    simp only at hx
    rcases drainHeap_recv_mem _ _ _ _ hx with h' | h'
    · rcases List.mem_append.mp h' with h'' | h''
      · left; exact h''
      · right; right; simpa using h''
    · right; left; exact h'
  · rw [if_neg h1] at hx
    by_cases h2 : order_is_more_recent m.order q.remote_order_id
    · rw [if_pos h2] at hx
      left; exact hx
    · rw [if_neg h2] at hx
      left; exact hx

theorem rom_heap_mem (q : MessageQueue) (m x : Message)
    (hx : x ∈ (q.receive_ordered_message m).o_recv_heap) :
    x ∈ q.o_recv_heap ∨ x = m := by
  rw [MessageQueue.receive_ordered_message] at hx
  by_cases h1 : m.order = q.remote_order_id
  · rw [if_pos h1] at hx
    simp only at hx
    left
    exact drainHeap_heap_mem _ _ _ _ hx
  · rw [if_neg h1] at hx
    by_cases h2 : order_is_more_recent m.order q.remote_order_id
    · rw [if_pos h2] at hx
      exact heapPush_mem _ _ _ hx
    · rw [if_neg h2] at hx
      left; exact hx

theorem receive_message_recv_mem (q : MessageQueue) (m x : Message)
    (hx : x ∈ (q.receive_message m).recv_queue) :
    x ∈ q.recv_queue ∨ x ∈ q.o_recv_heap ∨ (x = m ∧ x.kind ≠ .Invalid) := by
  rw [MessageQueue.receive_message] at hx
  cases hm : m.kind
  all_goals simp only [hm] at hx
  · rcases List.mem_append.mp hx with h' | h'
    · left; exact h'
    · simp at h'
      right; right
      exact ⟨h', by simp [h', hm]⟩
  · rcases List.mem_append.mp hx with h' | h'
    · left; exact h'
    · simp at h'
      right; right
      exact ⟨h', by simp [h', hm]⟩
  · rcases rom_recv_mem _ _ _ hx with h' | h' | h'
    · left; exact h'
    · right; left; exact h'
    · right; right
      exact ⟨h', by simp [h', hm]⟩
  · left; exact hx

theorem receive_message_heap_mem (q : MessageQueue) (m x : Message)
    (hx : x ∈ (q.receive_message m).o_recv_heap) :
    x ∈ q.o_recv_heap ∨ (x = m ∧ x.kind = .Ordered) := by
  rw [MessageQueue.receive_message] at hx
  cases hm : m.kind
  all_goals simp only [hm] at hx
  · left; exact hx
  · left; exact hx
  · rcases rom_heap_mem _ _ _ hx with h' | h'
    · left; exact h'
    · right; exact ⟨h', by simp [h', hm]⟩
  · left; exact hx

theorem recvFold_recv_mem (ms : List Message) (q : MessageQueue) (x : Message) :
    x ∈ (ms.foldl MessageQueue.receive_message q).recv_queue →
      x ∈ q.recv_queue ∨ x ∈ q.o_recv_heap ∨ (x ∈ ms ∧ x.kind ≠ .Invalid) := by
  induction ms generalizing q with
  | nil =>
    intro hx
    left; simpa using hx
  | cons m ms ih =>
    intro hx
    simp only [List.foldl_cons] at hx
    rcases ih _ hx with h' | h' | h'
    · rcases receive_message_recv_mem q m x h' with h'' | h'' | h''
      · left; exact h''
      · right; left; exact h''
      · right; right; exact ⟨by simp [h''.1], h''.2⟩
    · rcases receive_message_heap_mem q m x h' with h'' | h''
      · right; left; exact h''
      · right; right
        refine ⟨by simp [h''.1], ?_⟩
        rw [h''.2]
        decide
    · right; right
      exact ⟨List.mem_cons_of_mem _ h'.1, h'.2⟩

theorem recvFold_heap_mem (ms : List Message) (q : MessageQueue) (x : Message) :
    x ∈ (ms.foldl MessageQueue.receive_message q).o_recv_heap →
      x ∈ q.o_recv_heap ∨ (x ∈ ms ∧ x.kind = .Ordered) := by
  induction ms generalizing q with
  | nil =>
    intro hx
    left; simpa using hx
  | cons m ms ih =>
    intro hx
    simp only [List.foldl_cons] at hx
    rcases ih _ hx with h' | h'
    · rcases receive_message_heap_mem q m x h' with h'' | h''
      · left; exact h''
      · right; exact ⟨by simp [h''.1], h''.2⟩
    · right; exact ⟨List.mem_cons_of_mem _ h'.1, h'.2⟩

theorem lostFold_r_mem (ms : List Message) (q : MessageQueue) (x : Message) :
    x ∈ (ms.foldl MessageQueue.lost_message q).r_queue →
      x ∈ q.r_queue ∨ (x ∈ ms ∧ x.kind = .Reliable) := by
  induction ms generalizing q with
  | nil =>
    intro hx
    left; simpa using hx
  | cons m ms ih =>
    intro hx
    simp only [List.foldl_cons] at hx
    rcases ih _ hx with h' | h'
    · rw [MessageQueue.lost_message] at h'
      revert h'
      cases hm : m.kind
      all_goals intro h'
      all_goals simp only at h'
      · left; exact h'
      · rcases List.mem_cons.mp h' with h'' | h''
        · right; exact ⟨by simp [h''], by simp [h'', hm]⟩
        · left; exact h''
      · left; exact h'
      · left; exact h'
    · right; exact ⟨List.mem_cons_of_mem _ h'.1, h'.2⟩

theorem lostFold_o_mem (ms : List Message) (q : MessageQueue) (x : Message) :
    x ∈ (ms.foldl MessageQueue.lost_message q).o_queue →
      x ∈ q.o_queue ∨ (x ∈ ms ∧ x.kind = .Ordered) := by
  induction ms generalizing q with
  | nil =>
    intro hx
    left; simpa using hx
  | cons m ms ih =>
    intro hx
    simp only [List.foldl_cons] at hx
    rcases ih _ hx with h' | h'
    · rw [MessageQueue.lost_message] at h'
      revert h'
      cases hm : m.kind
      all_goals intro h'
      all_goals simp only at h'
      · left; exact h'
      · left; exact h'
      · rcases List.mem_cons.mp h' with h'' | h''
        · right; exact ⟨by simp [h''], by simp [h'', hm]⟩
        · left; exact h''
      · left; exact h'
    · right; exact ⟨List.mem_cons_of_mem _ h'.1, h'.2⟩

/-- C8: Decode totality — decoding any byte buffer terminates and yields
a list of messages; a trailing fragment of fewer than 3 bytes produces no
message; a kind tag other than 0, 1, 2 decodes to the Invalid kind, and
messages of Invalid kind are never placed in the receive queue or the
out-of-order heap by `receive_packet`, nor re-enqueued into a pending
queue by `lost_packet` (those queues only ever gain Reliable resp.
Ordered messages); a declared payload size exceeding the remaining bytes
yields a payload truncated to what is available, after which the decoding
loop terminates (that message is the last one decoded). -/
theorem C8_decode_totality :
    (∀ p : List Nat, p.length < 3 → messagesFromPacket p = []) ∧
    (∀ t : Nat, t ≠ 0 → t ≠ 1 → t ≠ 2 → kindOfTag t = .Invalid) ∧
    (∀ b0 b1 b2 : Nat, ∀ rest : List Nat, rest.length < b2 →
      messagesFromPacket (b0 :: b1 :: b2 :: rest) =
        [⟨kindOfTag (b0 &&& 0x0F), ((b0 &&& 0xF0) <<< 4) ||| b1, b2 % 256, rest⟩]) ∧
    (∀ (q : MessageQueue) (p : List Nat) (m : Message),
      m ∈ (q.receive_packet p).recv_queue →
        m ∈ q.recv_queue ∨ m ∈ q.o_recv_heap ∨ m.kind ≠ .Invalid) ∧
    (∀ (q : MessageQueue) (p : List Nat) (m : Message),
      m ∈ (q.receive_packet p).o_recv_heap → m ∈ q.o_recv_heap ∨ m.kind = .Ordered) ∧
    (∀ (q : MessageQueue) (p : List Nat) (m : Message),
      m ∈ (q.lost_packet p).r_queue → m ∈ q.r_queue ∨ m.kind = .Reliable) ∧
    (∀ (q : MessageQueue) (p : List Nat) (m : Message),
      m ∈ (q.lost_packet p).o_queue → m ∈ q.o_queue ∨ m.kind = .Ordered) := by
  refine ⟨messagesFromPacket_short, ?_, ?_, ?_, ?_, ?_, ?_⟩
  · intro t h0 h1 h2
    match t with
    | 0 => exact absurd rfl h0
    | 1 => exact absurd rfl h1
    | 2 => exact absurd rfl h2
    | n + 3 => rfl
  · intro b0 b1 b2 rest hlt
    rw [messagesFromPacket_cons, List.take_of_length_le (by omega),
      List.drop_eq_nil_of_le (by omega), messagesFromPacket_nil]
  · intro q p m hm
    rw [MessageQueue.receive_packet] at hm
    rcases recvFold_recv_mem _ _ _ hm with h' | h' | h'
    · left; exact h'
    · right; left; exact h'
    · right; right; exact h'.2
  · intro q p m hm
    rw [MessageQueue.receive_packet] at hm
    rcases recvFold_heap_mem _ _ _ hm with h' | h'
    · left; exact h'
    · right; exact h'.2
  · intro q p m hm
    rw [MessageQueue.lost_packet] at hm
    rcases lostFold_r_mem _ _ _ hm with h' | h'
    · left; exact h'
    · right; exact h'.2
  · intro q p m hm
    rw [MessageQueue.lost_packet] at hm
    rcases lostFold_o_mem _ _ _ hm with h' | h'
    · left; exact h'
    · right; exact h'.2

/-- Witness for C8 at concrete inputs. -/
theorem C8_decode_totality_witness :
    messagesFromPacket [7, 7] = [] ∧
    kindOfTag 9 = .Invalid ∧
    messagesFromPacket [9, 0, 5] =
      [⟨kindOfTag (9 &&& 0x0F), ((9 &&& 0xF0) <<< 4) ||| 0, 5 % 256, []⟩] ∧
    ((⟨.Instant, 0, 0, []⟩ : Message) ∈ (MessageQueue.new cfg0).recv_queue ∨
      (⟨.Instant, 0, 0, []⟩ : Message) ∈ (MessageQueue.new cfg0).o_recv_heap ∨
      (⟨.Instant, 0, 0, []⟩ : Message).kind ≠ .Invalid) ∧
    ((⟨.Reliable, 0, 0, []⟩ : Message) ∈ (MessageQueue.new cfg0).r_queue ∨
      (⟨.Reliable, 0, 0, []⟩ : Message).kind = .Reliable) := by
  refine ⟨C8_decode_totality.1 [7, 7] (by decide),
    C8_decode_totality.2.1 9 (by decide) (by decide) (by decide),
    C8_decode_totality.2.2.1 9 0 5 [] (by decide),
    C8_decode_totality.2.2.2.1 (MessageQueue.new cfg0) [0, 0, 0] ⟨.Instant, 0, 0, []⟩ ?_,
    C8_decode_totality.2.2.2.2.2.1 (MessageQueue.new cfg0) [1, 0, 0]
      ⟨.Reliable, 0, 0, []⟩ ?_⟩
  · simp [MessageQueue.receive_packet, messagesFromPacket, kindOfTag,
      MessageQueue.receive_message, MessageQueue.new]
  · simp [MessageQueue.lost_packet, messagesFromPacket, kindOfTag,
      MessageQueue.lost_message, MessageQueue.new]

theorem writeMessage_spec (q : List Message) (p : List Nat) (a w : Nat) :
    ∃ k, k ≤ 1 ∧ k ≤ q.length ∧
      writeMessage q p a w = ⟨q.drop k, p ++ ((q.take k).map encodeMessage).flatten,
        w + totalBytes (q.take k), decide (k = 1)⟩ := by
  match q with
  | [] => exact ⟨0, by omega, by simp, by simp [writeMessage, totalBytes]⟩
  | m :: rest =>
    by_cases hc : m.size + MESSAGE_HEADER_BYTES > usizeSub a w
    · refine ⟨0, by omega, by simp, ?_⟩
      rw [writeMessage]
      simp [hc, totalBytes]
    · refine ⟨1, by omega, by simp, ?_⟩
      rw [writeMessage]
      simp [hc, totalBytes, msgBytes]

theorem totalBytes_append (l1 l2 : List Message) :
    totalBytes (l1 ++ l2) = totalBytes l1 + totalBytes l2 := by
  simp [totalBytes]

theorem wml_spec (q : List Message) : ∀ (p : List Nat) (a u : Nat),
    ∃ k, k ≤ q.length ∧
      writeMessagesLoop q p a u = (q.drop k, p ++ ((q.take k).map encodeMessage).flatten,
        u + totalBytes (q.take k)) := by
  induction q with
  | nil =>
    intro p a u
    exact ⟨0, by simp, by simp [writeMessagesLoop, totalBytes]⟩
  | cons m rest ih =>
    intro p a u
    by_cases hc : m.size + MESSAGE_HEADER_BYTES > usizeSub a u
    · refine ⟨0, by simp, ?_⟩
      rw [writeMessagesLoop, if_pos hc]
      simp [totalBytes]
    · obtain ⟨k, hk, e⟩ := ih (p ++ encodeMessage m) a (u + (m.size + MESSAGE_HEADER_BYTES))
      refine ⟨k + 1, by simp; omega, ?_⟩
      rw [writeMessagesLoop, if_neg hc, e]
      simp [totalBytes, msgBytes, List.take_succ_cons, List.drop_succ_cons]
      omega

theorem perm_shuffle {α : Type} (A1 A2 A3 B1 B2 B3 ms : List α)
    (h : ms.Perm (B1 ++ B2 ++ B3)) :
    (A1 ++ (A2 ++ (A3 ++ ms))).Perm (A1 ++ (B1 ++ (A2 ++ (B2 ++ (A3 ++ B3))))) := by
  rw [← Multiset.coe_eq_coe] at h ⊢
  simp only [← Multiset.coe_add] at h ⊢
  rw [h]
  abel

theorem take_add' {α : Type} (l : List α) (m n : Nat) :
    l.take (m + n) = l.take m ++ (l.drop m).take n := by
  rw [List.take_drop]
  conv_lhs => rw [← List.take_append_drop m (l.take (m + n))]
  congr 1
  rw [List.take_take]
  congr 1
  omega

theorem fill_spec (n : Nat) : ∀ (iq rq oq : List Message) (p : List Nat) (a w : Nat),
    iq.length + rq.length + oq.length ≤ n →
    ∃ ki kr ko ms,
      fillLoop iq rq oq p a w = (iq.drop ki, rq.drop kr, oq.drop ko,
        p ++ (ms.map encodeMessage).flatten, w + totalBytes ms) ∧
      ms.Perm (iq.take ki ++ rq.take kr ++ oq.take ko) := by
  induction n using Nat.strong_induction_on with
  | _ n ih =>
    intro iq rq oq p a w hn
    obtain ⟨k1, hk1, hk1q, e1⟩ := writeMessage_spec iq p a w
    obtain ⟨k2, hk2, hk2q, e2⟩ := writeMessage_spec rq
      (p ++ ((iq.take k1).map encodeMessage).flatten) a (w + totalBytes (iq.take k1))
    obtain ⟨k3, hk3, hk3q, e3⟩ := writeMessage_spec oq
      ((p ++ ((iq.take k1).map encodeMessage).flatten) ++
        ((rq.take k2).map encodeMessage).flatten) a
      ((w + totalBytes (iq.take k1)) + totalBytes (rq.take k2))
    rw [fillLoop, e1]
    simp only
    rw [e2]
    simp only
    rw [e3]
    simp only
    by_cases hall : k1 = 0 ∧ k2 = 0 ∧ k3 = 0
    · obtain ⟨rfl, rfl, rfl⟩ := hall
      simp only [List.take_zero, List.map_nil, List.flatten_nil, List.append_nil,
        totalBytes, List.sum_nil, Nat.add_zero, List.drop_zero, decide_eq_true_eq]
      refine ⟨0, 0, 0, [], ?_, by simp⟩
      simp [totalBytes]
    · have hsome : k1 = 1 ∨ k2 = 1 ∨ k3 = 1 := by omega
      have hcond : (decide (k1 = 1) || decide (k2 = 1) || decide (k3 = 1)) = true := by
        rcases hsome with h | h | h <;> simp [h]
      rw [dif_pos hcond]
      obtain ⟨ki', kr', ko', ms', e', hperm'⟩ :=
        ih (n - 1) (by omega) (iq.drop k1) (rq.drop k2) (oq.drop k3)
          (((p ++ ((iq.take k1).map encodeMessage).flatten) ++
            ((rq.take k2).map encodeMessage).flatten) ++
            ((oq.take k3).map encodeMessage).flatten) a
          (((w + totalBytes (iq.take k1)) + totalBytes (rq.take k2)) +
            totalBytes (oq.take k3))
          (by
            simp only [List.length_drop]
            omega)
      rw [e']
      refine ⟨k1 + ki', k2 + kr', k3 + ko',
        iq.take k1 ++ (rq.take k2 ++ (oq.take k3 ++ ms')), ?_, ?_⟩
      · simp only [List.drop_drop, List.map_append, List.flatten_append,
          List.append_assoc, totalBytes_append, Prod.mk.injEq]
        refine ⟨by trivial, by trivial, by trivial, by trivial, by omega⟩
      · rw [take_add' iq, take_add' rq, take_add' oq]
        simp only [List.append_assoc]
        exact perm_shuffle _ _ _ _ _ _ _ hperm'

theorem usizeSub_zero (a : Nat) : usizeSub a 0 = a % 2 ^ 64 := by
  unfold usizeSub
  have h64 : (2 : Nat) ^ 64 = 18446744073709551616 := by norm_num
  rw [h64]
  omega

theorem sendPacketCore_spec (iq rq oq : List Message) (p : List Nat)
    (available qi qr qo : Nat) :
    ∃ (ki kr ko : Nat) (ms : List Message),
      sendPacketCore iq rq oq p available qi qr qo =
        (iq.drop ki, rq.drop kr, oq.drop ko, p ++ (ms.map encodeMessage).flatten) ∧
      ms.Perm (iq.take ki ++ rq.take kr ++ oq.take ko) := by
  obtain ⟨k1, hk1, e1⟩ := wml_spec iq p qi 0
  obtain ⟨k2, hk2, e2⟩ := wml_spec rq (p ++ ((iq.take k1).map encodeMessage).flatten) qr 0
  obtain ⟨k3, hk3, e3⟩ := wml_spec oq
    ((p ++ ((iq.take k1).map encodeMessage).flatten) ++
      ((rq.take k2).map encodeMessage).flatten) qo 0
  obtain ⟨ki', kr', ko', ms', e', hperm'⟩ :=
    fill_spec ((iq.drop k1).length + (rq.drop k2).length + (oq.drop k3).length)
      (iq.drop k1) (rq.drop k2) (oq.drop k3)
      (((p ++ ((iq.take k1).map encodeMessage).flatten) ++
        ((rq.take k2).map encodeMessage).flatten) ++
        ((oq.take k3).map encodeMessage).flatten) available
      (0 + (0 + totalBytes (iq.take k1)) + (0 + totalBytes (rq.take k2)) +
        (0 + totalBytes (oq.take k3)))
      (le_refl _)
  rw [sendPacketCore, writeMessages, e1]
  simp only
  rw [writeMessages, e2]
  simp only
  rw [writeMessages, e3]
  simp only
  rw [e']
  refine ⟨k1 + ki', k2 + kr', k3 + ko',
    iq.take k1 ++ (rq.take k2 ++ (oq.take k3 ++ ms')), ?_, ?_⟩
  · simp only [List.drop_drop, List.map_append, List.flatten_append, List.append_assoc,
      Prod.mk.injEq]
  · rw [take_add' iq, take_add' rq, take_add' oq]
    simp only [List.append_assoc]
    exact perm_shuffle _ _ _ _ _ _ _ hperm'

theorem writeMessage_stuck (qu : List Message) (p : List Nat) (a w : Nat)
    (h : ∀ m, qu.head? = some m → usizeSub a w < m.size + MESSAGE_HEADER_BYTES) :
    writeMessage qu p a w = ⟨qu, p, w, false⟩ := by
  match qu with
  | [] => rfl
  | m :: rest =>
    rw [writeMessage, if_pos (h m rfl)]

theorem wml_stuck (qu : List Message) (p : List Nat) (aq : Nat)
    (h : ∀ m, qu.head? = some m → aq % 2 ^ 64 < m.size + MESSAGE_HEADER_BYTES) :
    writeMessagesLoop qu p aq 0 = (qu, p, 0) := by
  match qu with
  | [] => rfl
  | m :: rest =>
    rw [writeMessagesLoop, if_pos (by rw [usizeSub_zero]; exact h m rfl)]

theorem fillLoop_stuck (iq rq oq : List Message) (p : List Nat) (a : Nat)
    (hi : ∀ m, iq.head? = some m → a % 2 ^ 64 < m.size + MESSAGE_HEADER_BYTES)
    (hr : ∀ m, rq.head? = some m → a % 2 ^ 64 < m.size + MESSAGE_HEADER_BYTES)
    (ho : ∀ m, oq.head? = some m → a % 2 ^ 64 < m.size + MESSAGE_HEADER_BYTES) :
    fillLoop iq rq oq p a 0 = (iq, rq, oq, p, 0) := by
  rw [fillLoop, writeMessage_stuck iq p a 0 (by rw [usizeSub_zero]; exact hi)]
  simp only
  rw [writeMessage_stuck rq p a 0 (by rw [usizeSub_zero]; exact hr)]
  simp only
  rw [writeMessage_stuck oq p a 0 (by rw [usizeSub_zero]; exact ho)]
  simp only
  rw [dif_neg (by simp)]

theorem quota_le (available pct : Nat) (h : pct ≤ 100) :
    available * pct / 100 ≤ available := by
  have h1 : available * pct ≤ available * 100 := Nat.mul_le_mul_left _ h
  have h2 : available * 100 / 100 = available := by omega
  calc available * pct / 100 ≤ available * 100 / 100 := Nat.div_le_div_right h1
  _ = available := h2

/-- C7: Pack conservation and atomicity — a single `write_message` step
either leaves the queue, packet and byte counter untouched (returning
`false`) when the head message does not fit the remaining budget, or
removes exactly the head message at the same moment its encoding is
appended to the packet; across a whole `send_packet` call each pending
queue loses exactly a prefix (messages that do not fit stay at the head,
untouched), the packet is extended by exactly the encodings of the
removed messages; and when the budget is too small to fit even one
pending message, `send_packet` appends nothing and leaves all three
queues exactly as they were. -/
theorem C7_pack_conservation_atomicity (q : MessageQueue) (packet : List Nat)
    (available : Nat) (h64 : available < 2 ^ 64)
    (hpi : q.config.message_quota_instant ≤ 100)
    (hpr : q.config.message_quota_reliable ≤ 100)
    (hpo : q.config.message_quota_ordered ≤ 100) :
    (∀ (m : Message) (rest : List Message) (p : List Nat) (a w : Nat),
      (m.size + MESSAGE_HEADER_BYTES > usizeSub a w →
        writeMessage (m :: rest) p a w = ⟨m :: rest, p, w, false⟩) ∧
      (m.size + MESSAGE_HEADER_BYTES ≤ usizeSub a w →
        writeMessage (m :: rest) p a w =
          ⟨rest, p ++ encodeMessage m, w + (m.size + MESSAGE_HEADER_BYTES), true⟩)) ∧
    (∃ (ki kr ko : Nat) (ms : List Message),
      (q.send_packet packet available).1.i_queue = q.i_queue.drop ki ∧
      (q.send_packet packet available).1.r_queue = q.r_queue.drop kr ∧
      (q.send_packet packet available).1.o_queue = q.o_queue.drop ko ∧
      (q.send_packet packet available).2 = packet ++ (ms.map encodeMessage).flatten ∧
      ms.Perm (q.i_queue.take ki ++ q.r_queue.take kr ++ q.o_queue.take ko)) ∧
    ((∀ m, q.i_queue.head? = some m → available < m.size + MESSAGE_HEADER_BYTES) →
      (∀ m, q.r_queue.head? = some m → available < m.size + MESSAGE_HEADER_BYTES) →
      (∀ m, q.o_queue.head? = some m → available < m.size + MESSAGE_HEADER_BYTES) →
      q.send_packet packet available = (q, packet)) := by
  refine ⟨?_, ?_, ?_⟩
  · intro m rest p a w
    constructor
    · intro hgt
      rw [writeMessage, if_pos hgt]
    · intro hle
      rw [writeMessage, if_neg (by omega)]
  · obtain ⟨ki, kr, ko, ms, e, hperm⟩ := sendPacketCore_spec q.i_queue q.r_queue
      q.o_queue packet available
      (available * q.config.message_quota_instant / 100)
      (available * q.config.message_quota_reliable / 100)
      (available * q.config.message_quota_ordered / 100)
    refine ⟨ki, kr, ko, ms, ?_, ?_, ?_, ?_, hperm⟩ <;>
      simp [MessageQueue.send_packet, e]
  · intro hi hr ho
    have hqi := quota_le available q.config.message_quota_instant hpi
    have hqr := quota_le available q.config.message_quota_reliable hpr
    have hqo := quota_le available q.config.message_quota_ordered hpo
    have stuck : ∀ (qu : List Message) (aq : Nat), aq ≤ available →
        (∀ m, qu.head? = some m → available < m.size + MESSAGE_HEADER_BYTES) →
        (∀ m, qu.head? = some m → aq % 2 ^ 64 < m.size + MESSAGE_HEADER_BYTES) := by
      intro qu aq haq hqu m hm
      have := hqu m hm
      have : aq % 2 ^ 64 ≤ aq := Nat.mod_le _ _
      omega
    rw [MessageQueue.send_packet, sendPacketCore]
    rw [writeMessages, wml_stuck _ _ _ (stuck _ _ hqi hi)]
    simp only
    rw [writeMessages, wml_stuck _ _ _ (stuck _ _ hqr hr)]
    simp only
    rw [writeMessages, wml_stuck _ _ _ (stuck _ _ hqo ho)]
    simp only
    rw [fillLoop_stuck _ _ _ _ _ (stuck _ _ (le_refl _) hi) (stuck _ _ (le_refl _) hr)
      (stuck _ _ (le_refl _) ho)]

/-- Witness for C7 at a concrete queue, budget and configuration. -/
theorem C7_pack_conservation_atomicity_witness :
    (2048 : Nat) < 2 ^ 64 ∧
    ((∀ (m : Message) (rest : List Message) (p : List Nat) (a w : Nat),
      (m.size + MESSAGE_HEADER_BYTES > usizeSub a w →
        writeMessage (m :: rest) p a w = ⟨m :: rest, p, w, false⟩) ∧
      (m.size + MESSAGE_HEADER_BYTES ≤ usizeSub a w →
        writeMessage (m :: rest) p a w =
          ⟨rest, p ++ encodeMessage m, w + (m.size + MESSAGE_HEADER_BYTES), true⟩)) ∧
    (∃ (ki kr ko : Nat) (ms : List Message),
      (((MessageQueue.new cfg0).send .Reliable [5]).send_packet [] 2048).1.i_queue =
        ((MessageQueue.new cfg0).send .Reliable [5]).i_queue.drop ki ∧
      (((MessageQueue.new cfg0).send .Reliable [5]).send_packet [] 2048).1.r_queue =
        ((MessageQueue.new cfg0).send .Reliable [5]).r_queue.drop kr ∧
      (((MessageQueue.new cfg0).send .Reliable [5]).send_packet [] 2048).1.o_queue =
        ((MessageQueue.new cfg0).send .Reliable [5]).o_queue.drop ko ∧
      (((MessageQueue.new cfg0).send .Reliable [5]).send_packet [] 2048).2 =
        [] ++ (ms.map encodeMessage).flatten ∧
      ms.Perm (((MessageQueue.new cfg0).send .Reliable [5]).i_queue.take ki ++
        ((MessageQueue.new cfg0).send .Reliable [5]).r_queue.take kr ++
        ((MessageQueue.new cfg0).send .Reliable [5]).o_queue.take ko)) ∧
    ((∀ m, ((MessageQueue.new cfg0).send .Reliable [5]).i_queue.head? = some m →
        2048 < m.size + MESSAGE_HEADER_BYTES) →
      (∀ m, ((MessageQueue.new cfg0).send .Reliable [5]).r_queue.head? = some m →
        2048 < m.size + MESSAGE_HEADER_BYTES) →
      (∀ m, ((MessageQueue.new cfg0).send .Reliable [5]).o_queue.head? = some m →
        2048 < m.size + MESSAGE_HEADER_BYTES) →
      ((MessageQueue.new cfg0).send .Reliable [5]).send_packet [] 2048 =
        (((MessageQueue.new cfg0).send .Reliable [5]), []))) :=
  ⟨by norm_num,
    C7_pack_conservation_atomicity ((MessageQueue.new cfg0).send .Reliable [5]) [] 2048
      (by norm_num) (by decide) (by decide) (by decide)⟩

theorem encodeMessage_length (m : Message) (h : m.size = m.data.length) :
    (encodeMessage m).length = m.size + MESSAGE_HEADER_BYTES := by
  simp [encodeMessage, h, MESSAGE_HEADER_BYTES]

theorem encoded_length (l : List Message) (h : ∀ m ∈ l, m.size = m.data.length) :
    ((l.map encodeMessage).flatten).length = totalBytes l := by
  induction l with
  | nil => simp [totalBytes]
  | cons m rest ih =>
    simp only [List.map_cons, List.flatten_cons, List.length_append]
    rw [encodeMessage_length m (h m (by simp)), ih (fun x hx => h x (by simp [hx]))]
    simp [totalBytes, msgBytes]

theorem writeMessage_written_le (qu : List Message) (p : List Nat) (a w : Nat)
    (ha : a < 2 ^ 64) (hw : w ≤ a) : (writeMessage qu p a w).written ≤ a := by
  match qu with
  | [] => exact hw
  | m :: rest =>
    rw [writeMessage]
    by_cases hc : m.size + MESSAGE_HEADER_BYTES > usizeSub a w
    · rw [if_pos hc]
      exact hw
    · rw [if_neg hc]
      rw [usizeSub_of_le a w hw ha] at hc
      simp only
      omega

theorem wml_written_le (qu : List Message) : ∀ (p : List Nat) (a u : Nat),
    a < 2 ^ 64 → u ≤ a → (writeMessagesLoop qu p a u).2.2 ≤ a := by
  induction qu with
  | nil =>
    intro p a u ha hu
    exact hu
  | cons m rest ih =>
    intro p a u ha hu
    rw [writeMessagesLoop]
    by_cases hc : m.size + MESSAGE_HEADER_BYTES > usizeSub a u
    · rw [if_pos hc]
      exact hu
    · rw [if_neg hc]
      rw [usizeSub_of_le a u hu ha] at hc
      exact ih _ _ _ ha (by omega)

theorem fill_bound (n : Nat) : ∀ (iq rq oq : List Message) (p : List Nat) (a w : Nat),
    iq.length + rq.length + oq.length ≤ n →
    (∀ m ∈ iq ++ rq ++ oq, m.size = m.data.length) →
    a < 2 ^ 64 → w ≤ a →
    (fillLoop iq rq oq p a w).2.2.2.2 ≤ a ∧
    (fillLoop iq rq oq p a w).2.2.2.1.length =
      p.length + ((fillLoop iq rq oq p a w).2.2.2.2 - w) ∧
    w ≤ (fillLoop iq rq oq p a w).2.2.2.2 := by
  induction n using Nat.strong_induction_on with
  | _ n ih =>
    intro iq rq oq p a w hn hwf ha hw
    obtain ⟨k1, hk1, hk1q, e1⟩ := writeMessage_spec iq p a w
    obtain ⟨k2, hk2, hk2q, e2⟩ := writeMessage_spec rq
      (p ++ ((iq.take k1).map encodeMessage).flatten) a (w + totalBytes (iq.take k1))
    obtain ⟨k3, hk3, hk3q, e3⟩ := writeMessage_spec oq
      ((p ++ ((iq.take k1).map encodeMessage).flatten) ++
        ((rq.take k2).map encodeMessage).flatten) a
      ((w + totalBytes (iq.take k1)) + totalBytes (rq.take k2))
    have hwf1 : ∀ m ∈ iq.take k1, m.size = m.data.length := fun m hm =>
      hwf m (by simp [List.mem_of_mem_take hm])
    have hwf2 : ∀ m ∈ rq.take k2, m.size = m.data.length := fun m hm =>
      hwf m (by simp [List.mem_of_mem_take hm])
    have hwf3 : ∀ m ∈ oq.take k3, m.size = m.data.length := fun m hm =>
      hwf m (by simp [List.mem_of_mem_take hm])
    have hb1 : w + totalBytes (iq.take k1) ≤ a := by
      have := writeMessage_written_le iq p a w ha hw
      rw [e1] at this
      exact this
    have hb2 : (w + totalBytes (iq.take k1)) + totalBytes (rq.take k2) ≤ a := by
      have := writeMessage_written_le rq
        (p ++ ((iq.take k1).map encodeMessage).flatten) a
        (w + totalBytes (iq.take k1)) ha hb1
      rw [e2] at this
      exact this
    have hb3 : ((w + totalBytes (iq.take k1)) + totalBytes (rq.take k2)) +
        totalBytes (oq.take k3) ≤ a := by
      have := writeMessage_written_le oq
        ((p ++ ((iq.take k1).map encodeMessage).flatten) ++
          ((rq.take k2).map encodeMessage).flatten) a
        ((w + totalBytes (iq.take k1)) + totalBytes (rq.take k2)) ha hb2
      rw [e3] at this
      exact this
    rw [fillLoop, e1]
    simp only
    rw [e2]
    simp only
    rw [e3]
    simp only
    by_cases hall : k1 = 0 ∧ k2 = 0 ∧ k3 = 0
    · obtain ⟨rfl, rfl, rfl⟩ := hall
      simp only [List.take_zero, List.map_nil, List.flatten_nil, List.append_nil,
        decide_eq_true_eq]
      rw [dif_neg (by simp)]
      refine ⟨by simpa [totalBytes] using hb3, ?_, by simp [totalBytes]⟩
      simp [totalBytes]
    · have hcond : (decide (k1 = 1) || decide (k2 = 1) || decide (k3 = 1)) = true := by
        have : k1 = 1 ∨ k2 = 1 ∨ k3 = 1 := by omega
        rcases this with h | h | h <;> simp [h]
      rw [dif_pos hcond]
      have hwf' : ∀ m ∈ iq.drop k1 ++ rq.drop k2 ++ oq.drop k3,
          m.size = m.data.length := by
        intro m hm
        apply hwf
        simp only [List.mem_append] at hm ⊢
        rcases hm with (h | h) | h
        · exact Or.inl (Or.inl (List.mem_of_mem_drop h))
        · exact Or.inl (Or.inr (List.mem_of_mem_drop h))
        · exact Or.inr (List.mem_of_mem_drop h)
      obtain ⟨iha, ihb, ihc⟩ := ih (n - 1) (by omega) (iq.drop k1) (rq.drop k2)
        (oq.drop k3)
        (((p ++ ((iq.take k1).map encodeMessage).flatten) ++
          ((rq.take k2).map encodeMessage).flatten) ++
          ((oq.take k3).map encodeMessage).flatten) a
        (((w + totalBytes (iq.take k1)) + totalBytes (rq.take k2)) +
          totalBytes (oq.take k3))
        (by simp only [List.length_drop]; omega) hwf' ha hb3
      refine ⟨iha, ?_, by omega⟩
      rw [ihb]
      simp only [List.length_append]
      rw [encoded_length _ hwf1, encoded_length _ hwf2, encoded_length _ hwf3]
      omega

set_option maxHeartbeats 1000000 in
/-- C4, amended: for every set of pending queues whose messages are
well-formed (`size` = payload length, the data-model invariant), every
`usize` available-byte budget, and every triple of per-kind quota byte
budgets whose sum is at most `available`, a single pack call
(`sendPacketCore`, the body of `send_packet` applied to the quota byte
budgets the configuration computes) appends at most `available` bytes to
the packet buffer and completes.  The bound is stated over the computed
byte budgets because it genuinely depends on them, not on the quota
percentages: percentages each in `[0,100]` can overlap and overfill the
packet (see the counterexample), and the `f32` rounding in the source's
`(available as f32 / 100.0 * quota) as usize` can push a computed budget
above `available` at large budgets (`available = 2^32 - 256` with quota
`100.0` computes to `2^32`), which also voids any percentage-level
bound. -/
theorem C4_pack_budget (iq rq oq : List Message) (packet : List Nat)
    (available qi qr qo : Nat) (h64 : available < 2 ^ 64)
    (hsum : qi + qr + qo ≤ available)
    (hwf : ∀ m ∈ iq ++ rq ++ oq, m.size = m.data.length) :
    ((sendPacketCore iq rq oq packet available qi qr qo).2.2.2).length ≤
      packet.length + available := by
  obtain ⟨k1, hk1, e1⟩ := wml_spec iq packet qi 0
  obtain ⟨k2, hk2, e2⟩ := wml_spec rq
    (packet ++ ((iq.take k1).map encodeMessage).flatten) qr 0
  obtain ⟨k3, hk3, e3⟩ := wml_spec oq
    ((packet ++ ((iq.take k1).map encodeMessage).flatten) ++
      ((rq.take k2).map encodeMessage).flatten) qo 0
  have hu1 : 0 + totalBytes (iq.take k1) ≤ qi := by
    have := wml_written_le iq packet qi 0 (by omega) (by omega)
    rw [e1] at this
    exact this
  have hu2 : 0 + totalBytes (rq.take k2) ≤ qr := by
    have := wml_written_le rq
      (packet ++ ((iq.take k1).map encodeMessage).flatten) qr 0 (by omega) (by omega)
    rw [e2] at this
    exact this
  have hu3 : 0 + totalBytes (oq.take k3) ≤ qo := by
    have := wml_written_le oq
      ((packet ++ ((iq.take k1).map encodeMessage).flatten) ++
        ((rq.take k2).map encodeMessage).flatten) qo 0 (by omega) (by omega)
    rw [e3] at this
    exact this
  have hwf1 : ∀ m ∈ iq.take k1, m.size = m.data.length := fun m hm =>
    hwf m (by simp [List.mem_of_mem_take hm])
  have hwf2 : ∀ m ∈ rq.take k2, m.size = m.data.length := fun m hm =>
    hwf m (by simp [List.mem_of_mem_take hm])
  have hwf3 : ∀ m ∈ oq.take k3, m.size = m.data.length := fun m hm =>
    hwf m (by simp [List.mem_of_mem_take hm])
  have hwf' : ∀ m ∈ iq.drop k1 ++ rq.drop k2 ++ oq.drop k3,
      m.size = m.data.length := by
    intro m hm
    apply hwf
    simp only [List.mem_append] at hm ⊢
    rcases hm with (h | h) | h
    · exact Or.inl (Or.inl (List.mem_of_mem_drop h))
    · exact Or.inl (Or.inr (List.mem_of_mem_drop h))
    · exact Or.inr (List.mem_of_mem_drop h)
  obtain ⟨fb1, fb2, fb3⟩ := fill_bound
    ((iq.drop k1).length + (rq.drop k2).length + (oq.drop k3).length)
    (iq.drop k1) (rq.drop k2) (oq.drop k3)
    (((packet ++ ((iq.take k1).map encodeMessage).flatten) ++
      ((rq.take k2).map encodeMessage).flatten) ++
      ((oq.take k3).map encodeMessage).flatten) available
    ((0 + (0 + totalBytes (iq.take k1)) + (0 + totalBytes (rq.take k2))) +
      (0 + totalBytes (oq.take k3)))
    (le_refl _) hwf' h64 (by omega)
  rw [sendPacketCore, writeMessages, e1]
  simp only
  rw [writeMessages, e2]
  simp only
  rw [writeMessages, e3]
  simp only
  rw [fb2]
  simp only [List.length_append]
  rw [encoded_length _ hwf1, encoded_length _ hwf2, encoded_length _ hwf3]
  omega

/-- Witness for C4's amended theorem at concrete queues and budgets (the
quota byte budgets 38, 12, 12 are what the source computes from
`Config::default()`'s 60/20/20 percentages at 64 available bytes). -/
theorem C4_pack_budget_witness :
    ((sendPacketCore [] [⟨.Reliable, 0, 1, [5]⟩] [] [] 64 38 12 12).2.2.2).length ≤
      ([] : List Nat).length + 64 :=
  C4_pack_budget [] [⟨.Reliable, 0, 1, [5]⟩] [] [] 64 38 12 12 (by norm_num)
    (by decide) (by decide)

/-- C4 counterexample: with quota percentages (100, 100, 0) — each inside
`[0, 100]` but summing to 200 — a budget of 100 bytes, and one 97-byte
Instant and one 97-byte Reliable message pending, a single `send_packet`
call appends 200 bytes to the packet: each quota pass may write up to its
own quota, so overlapping quotas overfill the packet beyond `available`. -/
theorem C4_pack_budget_cex :
    (((((MessageQueue.new ⟨100, 100, 0⟩).send .Instant (List.replicate 97 7)).send
        .Reliable (List.replicate 97 7)).send_packet [] 100).2).length = 200 ∧
      100 < 200 := by
  constructor
  · have hq : (((MessageQueue.new ⟨100, 100, 0⟩).send .Instant
        (List.replicate 97 7)).send .Reliable (List.replicate 97 7)) =
        ⟨⟨100, 100, 0⟩, 0, 0, [⟨.Instant, 0, 97, List.replicate 97 7⟩],
          [⟨.Reliable, 0, 97, List.replicate 97 7⟩], [], [], []⟩ := by
      simp [MessageQueue.new, MessageQueue.send]
    rw [hq, MessageQueue.send_packet]
    simp only
    norm_num
    rw [sendPacketCore,
      writeMessages_all [⟨.Instant, 0, 97, List.replicate 97 7⟩] [] 100 0 (by norm_num)
        (by simp [totalBytes, msgBytes, MESSAGE_HEADER_BYTES]),
      writeMessages_all [⟨.Reliable, 0, 97, List.replicate 97 7⟩] _ 100 _ (by norm_num)
        (by simp [totalBytes, msgBytes, MESSAGE_HEADER_BYTES])]
    simp only
    rw [writeMessages, writeMessagesLoop]
    simp only
    rw [fillLoop_nil]
    simp only [List.map_cons, List.map_nil, List.flatten_cons, List.flatten_nil,
      List.append_nil, List.nil_append, List.length_append]
    rw [encodeMessage_length _ (by simp), encodeMessage_length _ (by simp)]
    simp [MESSAGE_HEADER_BYTES]
  · norm_num

end MQ
